import Mathlib

/-!
Shallow embedding of the template substitution engine of `cv_generator.py`
(the CV template generator).  Paragraph text is modelled as `List Char`;
the document is an ordered list of body elements (paragraphs and tables),
the interface the document-model collaborator exposes per the spec.
Python data values are modelled by the stratified data model of spec
section 3: a name maps to a scalar, a list of scalars, or a list of
records; a record maps names to scalars or lists of scalars.
-/

abbrev Chars := List Char

/-- Python `sub in s`: does `pat` occur as a contiguous substring of `s`? -/
def containsSub (pat s : Chars) : Bool :=
  s.tails.any (fun t => pat.isPrefixOf t)

/-- Fuel-indexed version of Python `s.split(pat)`: splits at each
leftmost, non-overlapping occurrence of `pat`.  The fuel is only there to
make the recursion structural; `splitOnSub` instantiates it with
`s.length`, which is always enough. -/
def splitOnSubF (pat : Chars) : Nat → Chars → List Chars
  | _, [] => [[]]
  | 0, s => [s]
  | fuel + 1, c :: rest =>
    if pat.isPrefixOf (c :: rest) ∧ pat ≠ [] then
      [] :: splitOnSubF pat fuel ((c :: rest).drop pat.length)
    else
      match splitOnSubF pat fuel rest with
      | [] => [[c]]
      | h :: t => (c :: h) :: t

/-- Python `s.split(pat)` (for the non-empty separators the program uses). -/
def splitOnSub (pat s : Chars) : List Chars := splitOnSubF pat s.length s

/-- Join a list of pieces with a separator between consecutive pieces
(the inverse of `splitOnSub`). -/
def joinSep (sep : Chars) : List Chars → Chars
  | [] => []
  | [x] => x
  | x :: y :: rest => x ++ sep ++ joinSep sep (y :: rest)

/-- Python `\w` (ASCII fragment): letters, digits and underscore. -/
def isWordChar (c : Char) : Bool := c.isAlphanum || c = '_'

/-- Try to match the open-marker regex `\x7b\x7b#(\w+)\x7d\x7d` at the very
start of `s`, returning the captured name. -/
def openAt (s : Chars) : Option Chars :=
  match s with
  | '\x7b' :: '\x7b' :: '#' :: rest =>
    if rest.takeWhile isWordChar ≠ [] ∧
        ['\x7d', '\x7d'].isPrefixOf (rest.drop (rest.takeWhile isWordChar).length) then
      some (rest.takeWhile isWordChar)
    else none
  | _ => none

/-- Python `re.search` of the block-open pattern: the leftmost match wins
(`match = re.search(r'...', para.text)` in `fill_docx_template`). -/
def findOpenMarker : Chars → Option Chars
  | [] => none
  | c :: rest =>
    match openAt (c :: rest) with
    | some w => some w
    | none => findOpenMarker rest

/-- Match the lazy body `(.+?)` of the emphasis regex followed by the
closing marker run: returns the shortest non-empty newline-free content
followed by `marker`, together with the rest after the closing marker. -/
def tryContent (marker : Chars) : Chars → Option (Chars × Chars)
  | [] => none
  | c :: rest =>
    if c = '\n' then none
    else if marker.isPrefixOf rest then some ([c], rest.drop marker.length)
    else
      match tryContent marker rest with
      | some (content, r2) => some (c :: content, r2)
      | none => none

/-- Match the emphasis regex `(\*\x7b1,2\x7d)(.+?)\1` at the start of `s`:
a greedy one-or-two star opener (with backtracking to a single star), a
lazy body, and a closing run equal to the opener. -/
def starMatch (s : Chars) : Option (Chars × Chars) :=
  match s with
  | '*' :: '*' :: rest =>
    (match tryContent ['*', '*'] rest with
     | some r => some r
     | none => tryContent ['*'] ('*' :: rest))
  | '*' :: rest => tryContent ['*'] rest
  | _ => none

/-- Scanner behind `parse_markdown_formatting`: walk the text, flushing
accumulated plain text before each emphasis match (the accumulator is kept
reversed).  Fuel makes the recursion structural; one unit per consumed
character is enough, and star-free text gives the same answer for any fuel. -/
def parseMDF : Nat → Chars → Chars → List (Chars × Bool)
  | _, acc, [] => if acc = [] then [] else [(acc.reverse, false)]
  | 0, acc, s => if acc.reverse ++ s = [] then [] else [(acc.reverse ++ s, false)]
  | fuel + 1, acc, c :: rest =>
    match starMatch (c :: rest) with
    | some (content, r2) =>
      (if acc = [] then [] else [(acc.reverse, false)]) ++
        (content, true) :: parseMDF fuel [] r2
    | none => parseMDF fuel (c :: acc) rest

/-- `parse_markdown_formatting(text)`: list of `(segment, is_bold)` pieces;
an empty match list falls back to the whole text unemphasised. -/
def parseMarkdownFormatting (text : Chars) : List (Chars × Bool) :=
  let parts := parseMDF text.length [] text
  if parts = [] then [(text, false)] else parts

/-- Style record of a formatted run; each field is either set or
"inherit" (`None` in python-docx). -/
structure RunStyle where
  bold : Option Bool
  italic : Option Bool
  underline : Option Bool
  fontName : Option Chars
  size : Option Nat
  color : Option Nat
deriving DecidableEq, Repr

/-- A formatted run: a text plus its style record. -/
structure Run where
  text : Chars
  style : RunStyle
deriving DecidableEq, Repr

/-- A `w:pPr` paragraph-properties element: the optional `pStyle` name
plus an opaque payload standing for the remaining XML content. -/
structure PP where
  pStyle : Option Chars
  extra : Nat
deriving DecidableEq, Repr

/-- A paragraph: its runs plus the list of `w:pPr` children of its XML
element (`insert(0, ...)` conses onto the list; the head is the one
python-docx getters see). -/
structure Para where
  runs : List Run
  pPrs : List PP
deriving DecidableEq, Repr

/-- A table: rows of cells of paragraphs. -/
structure Table where
  rows : List (List (List Para))
deriving DecidableEq, Repr

/-- A body element of the document: a paragraph or a table. -/
inductive Elem where
  | par (p : Para)
  | tbl (t : Table)
deriving DecidableEq, Repr

/-- `paragraph.text`: concatenation of the runs' texts. -/
def paraText (p : Para) : Chars := (p.runs.map Run.text).flatten

/-- A fresh paragraph as produced by `doc.add_paragraph()`. -/
def emptyPara : Para := { runs := [], pPrs := [] }

/-- A fresh empty `w:pPr` element (`OxmlElement('w:pPr')`). -/
def freshPP : PP := { pStyle := none, extra := 0 }

/-- `paragraph.style` getter: the `pStyle` of the first `pPr` child, or
the default style. -/
def styleOfPara (p : Para) : Chars :=
  ((p.pPrs.head?.bind PP.pStyle).getD ("Normal".toList))

/-- `paragraph.style = s` setter: writes `pStyle` into the first `pPr`
child, creating one if absent. -/
def setParaStyle (p : Para) (s : Chars) : Para :=
  { p with pPrs :=
      match p.pPrs with
      | [] => [{ pStyle := some s, extra := 0 }]
      | h :: t => { h with pStyle := some s } :: t }

/-- Truthiness filter used for `if new_segment.get('name'):` - a `None`
or empty font name is not applied to the new run. -/
def truthyName (o : Option Chars) : Option Chars :=
  match o with
  | some n => if n = [] then none else some n
  | none => none

/-- Truthiness filter for the font size (`Pt(0)` is falsy in Python). -/
def truthySize (o : Option Nat) : Option Nat :=
  match o with
  | some z => if z = 0 then none else some z
  | none => none

/-- Style of a run rebuilt by `_replace_placeholder_in_runs` from a
segment's inherited style: bold/italic/underline are assigned verbatim,
name/size/color only when truthy, and markdown emphasis forces bold on.
(`RGBColor` is always truthy, so the color transfers whenever set.) -/
def applyInherited (st : RunStyle) (mdBold : Bool) : RunStyle :=
  { bold := if mdBold then some true else st.bold
    italic := st.italic
    underline := st.underline
    fontName := truthyName st.fontName
    size := truthySize st.size
    color := st.color }

/-- One segment's contribution in `_replace_placeholder_in_runs`: split
around the placeholder into optional non-empty head, the replacement with
the segment's own style, and - whenever the split produced a tail - the
concatenation of the remaining pieces.  The boolean records whether this
segment contained the placeholder. -/
def segReplace (ph v : Chars) (seg : Run) : List Run × Bool :=
  if containsSub ph seg.text then
    let parts := splitOnSub ph seg.text
    let pre := if parts.headI ≠ [] then [{ seg with text := parts.headI }] else []
    let suf := if parts.tail ≠ [] then [{ seg with text := parts.tail.flatten }] else []
    (pre ++ [{ seg with text := v }] ++ suf, true)
  else ([seg], false)

/-- Re-expansion of one rebuilt segment through the markdown parser: one
run per `(text, is_bold)` piece with the inherited style. -/
def runsOfSegment (seg : Run) : List Run :=
  (parseMarkdownFormatting seg.text).map
    (fun pb => { text := pb.1, style := applyInherited seg.style pb.2 })

/-- `_replace_placeholder_in_runs(paragraph, placeholder, replacement)`:
if no single run contains the placeholder the paragraph is returned
unchanged; otherwise all runs are discarded and rebuilt from the new
segment list, skipping empty-text segments. -/
def replacePlaceholderInRuns (p : Para) (ph v : Chars) : Para :=
  let results := p.runs.map (segReplace ph v)
  if results.any (fun r => r.2) then
    { p with runs :=
        ((((results.map (fun r => r.1)).flatten).filter
            (fun s => s.text ≠ [])).map runsOfSegment).flatten }
  else p

/-- Style given to runs created by `set_paragraph_text_with_formatting`:
the inherited properties when provided, except that bold is finally
overwritten with the markdown emphasis flag (`run.bold = is_bold`). -/
def siblingStyle (props : Option RunStyle) (mdBold : Bool) : RunStyle :=
  match props with
  | none =>
    { bold := some mdBold, italic := none, underline := none
      fontName := none, size := none, color := none }
  | some fp =>
    { bold := some mdBold, italic := fp.italic, underline := fp.underline
      fontName := truthyName fp.fontName, size := truthySize fp.size
      color := fp.color }

/-- `set_paragraph_text_with_formatting(paragraph, text, props)`:
`run.clear()` keeps the old run elements but empties their text, then new
runs are appended for each markdown piece. -/
def setParagraphTextWithFormatting (p : Para) (text : Chars)
    (props : Option RunStyle) : Para :=
  let cleared := p.runs.map (fun r => { r with text := [] })
  let newRuns := (parseMarkdownFormatting text).map
    (fun pb => { text := pb.1, style := siblingStyle props pb.2 })
  { p with runs := cleared ++ newRuns }

/-- A record field value: a scalar or a list of scalars (spec section 3). -/
inductive DField where
  | scalar (s : Chars)
  | flist (items : List Chars)
deriving DecidableEq, Repr

/-- Is this record field a Python list (`isinstance(value, list)`)? -/
def DField.isFlist : DField → Bool
  | .scalar _ => false
  | .flist _ => true

/-- A record: an ordered mapping from names to field values (Python dicts
preserve insertion order). -/
abbrev DRecord := List (Chars × DField)

/-- A top-level data value: scalar, list of scalars, or list of records. -/
inductive DVal where
  | scalar (s : Chars)
  | slist (items : List Chars)
  | rlist (records : List DRecord)
deriving DecidableEq, Repr

/-- Is this data value a Python list (`isinstance(value, list)`)? -/
def DVal.isList : DVal → Bool
  | .scalar _ => false
  | _ => true

/-- Is this data value a scalar (`not isinstance(value, (list, dict))`)? -/
def DVal.isScalar : DVal → Bool
  | .scalar _ => true
  | _ => false

/-- The data mapping loaded from JSON: an ordered list of entries with
distinct keys. -/
abbrev Data := List (Chars × DVal)

/-- Python `name in data and data[name]`. -/
def dlookup : Data → Chars → Option DVal
  | [], _ => none
  | (k, v) :: rest, key => if k = key then some v else dlookup rest key

/-- Python `repr` of a scalar string: surrounding single quotes. -/
def pyQuote (s : Chars) : Chars := '\x27' :: (s ++ ['\x27'])

/-- Python `str` of a list of scalar strings, for example `['a', 'b']`. -/
def pyReprList (items : List Chars) : Chars :=
  '[' :: (joinSep (", ".toList) (items.map pyQuote) ++ [']'])

/-- Python `repr` of a record field value. -/
def reprDField : DField → Chars
  | .scalar s => pyQuote s
  | .flist items => pyReprList items

/-- Python `str` of a record dict, for example `\x7b'k': 'v'\x7d`. -/
def pyReprRecord (r : DRecord) : Chars :=
  '\x7b' :: (joinSep (", ".toList)
      (r.map (fun kv => pyQuote kv.1 ++ (": ".toList) ++ reprDField kv.2))
    ++ ['\x7d'])

/-- Python `str(value)` of a record field. -/
def strField : DField → Chars
  | .scalar s => s
  | .flist items => pyReprList items

/-- Python `str(value)` of a top-level data value. -/
def strVal : DVal → Chars
  | .scalar s => s
  | .slist items => pyReprList items
  | .rlist records => '[' :: (joinSep (", ".toList) (records.map pyReprRecord) ++ [']'])

/-- The elements of a list-valued data value, each rendered by `str`. -/
def listElems : DVal → List Chars
  | .scalar _ => []
  | .slist items => items
  | .rlist records => records.map pyReprRecord

/-- The scalar placeholder token of a name (`"\x7b\x7bNAME\x7d\x7d"`). -/
def placeholderOf (k : Chars) : Chars :=
  '\x7b' :: '\x7b' :: (k ++ ['\x7d', '\x7d'])

/-- The block close marker of a name (`"\x7b\x7b/NAME\x7d\x7d"`). -/
def closeMarkerOf (k : Chars) : Chars :=
  '\x7b' :: '\x7b' :: '/' :: (k ++ ['\x7d', '\x7d'])

/-- The block open marker of a name (`"\x7b\x7b#NAME\x7d\x7d"`). -/
def openMarkerOf (k : Chars) : Chars :=
  '\x7b' :: '\x7b' :: '#' :: (k ++ ['\x7d', '\x7d'])

/-- The first record field whose placeholder occurs in the template
paragraph's text and whose value is a list (`list_key_in_para`). -/
def findListKey (fields : DRecord) (text : Chars) : Option (Chars × List Chars) :=
  match fields.find? (fun kv => containsSub (placeholderOf kv.1) text && kv.2.isFlist) with
  | some (k, .flist items) => some (k, items)
  | _ => none

/-- Key test for `substOthers`: `key != list_key` when a list key is
being skipped, vacuously true otherwise. -/
def notSkipped (skip : Option Chars) (key : Chars) : Bool :=
  match skip with
  | some k => decide (key ≠ k)
  | none => true

/-- Substitute every non-list record field (other than the skipped list
key, when given) into the paragraph, in field order. -/
def substOthers (fields : DRecord) (skip : Option Chars) (p0 : Para) : Para :=
  fields.foldl
    (fun q kv =>
      if notSkipped skip kv.1 ∧ kv.2.isFlist = false then
        replacePlaceholderInRuns q (placeholderOf kv.1) (strField kv.2)
      else q)
    p0

/-- Sibling paragraph built for a later list item inside a repeating
block: fresh paragraph, style copied from the first item's paragraph, a
copy of its first `pPr` child inserted in front, then the text set with
the inherited run properties. -/
def mkListSibling (first : Para) (props : Option RunStyle) (text : Chars) : Para :=
  let np1 := setParaStyle emptyPara (styleOfPara first)
  let np2 := { np1 with pPrs := (first.pPrs.head?.getD freshPP) :: np1.pPrs }
  setParagraphTextWithFormatting np2 text props

/-- Paragraphs generated from one template paragraph for one record
(lines 276-330 of `fill_docx_template`): a list-valued field expands to
one paragraph per item, any other paragraph is cloned once with all
non-list fields substituted. -/
def genTplPara (fields : DRecord) (tp : Para) : List Para :=
  match findListKey fields (paraText tp) with
  | some (k, items) =>
    let ph := placeholderOf k
    let first1 :=
      match items with
      | it :: _ => replacePlaceholderInRuns tp ph it
      | [] => replacePlaceholderInRuns tp ph []
    let first2 := substOthers fields (some k) first1
    match items with
    | it0 :: it1 :: restItems =>
      let props := (first2.runs.find? (fun r => containsSub it0 r.text)).map Run.style
      first2 :: (it1 :: restItems).map (fun it => mkListSibling first2 props it)
    | _ => [first2]
  | none => [substOthers fields none tp]

/-- All paragraphs generated for one record, in template order. -/
def genForRecord (r : DRecord) (tpl : List Para) : List Para :=
  (tpl.map (genTplPara r)).flatten

/-- The message of the exception Python raises when `.items()` is called
on a scalar list element. -/
def itemsErr : String := "AttributeError: object has no attribute items"

/-- Generation phase of one block expansion: the generated paragraphs (in
record order, then template order) plus the number of stray empty
paragraphs that `doc.add_paragraph()` left at the end of the body (one
per record per template paragraph).  A list of scalars raises as soon as
`.items()` is reached, that is when both the item list and the template
are non-empty. -/
def generateForBlock (v : DVal) (tpl : List Para) : Except String (List Para × Nat) :=
  match v with
  | .scalar _ => .ok ([], 0)
  | .slist items =>
    match items, tpl with
    | [], _ => .ok ([], 0)
    | _ :: _, [] => .ok ([], 0)
    | _ :: _, _ :: _ => .error itemsErr
  | .rlist records =>
    .ok ((records.map (fun r => genForRecord r tpl)).flatten,
         records.length * tpl.length)

/-- The paragraphs of the document body, in order (`doc.paragraphs`:
top-level paragraphs only, tables excluded). -/
def bodyParas (body : List Elem) : List Para :=
  body.filterMap (fun e => match e with | .par p => some p | .tbl _ => none)

/-- Body position of the paragraph with paragraph-order index `k`
(`pos` is the running body position). -/
def bodyIdxOfPara : List Elem → Nat → Nat → Option Nat
  | [], _, _ => none
  | .tbl _ :: rest, k, pos => bodyIdxOfPara rest k (pos + 1)
  | .par _ :: rest, k, pos =>
    if k = 0 then some pos else bodyIdxOfPara rest (k - 1) (pos + 1)

/-- Remove from the body every paragraph whose paragraph-order index lies
in `[i, j]` (`k` is the running paragraph counter); tables stay. -/
def removeParaRange : List Elem → Nat → Nat → Nat → List Elem
  | [], _, _, _ => []
  | .tbl t :: rest, i, j, k => .tbl t :: removeParaRange rest i j k
  | .par p :: rest, i, j, k =>
    if i ≤ k ∧ k ≤ j then removeParaRange rest i j (k + 1)
    else .par p :: removeParaRange rest i j (k + 1)

/-- Insert elements immediately after body position `a` (the splice
anchor held by reference in the source; its position is unchanged by the
removal because only later elements were removed). -/
def insertAfterIdx (body : List Elem) (a : Nat) (news : List Elem) : List Elem :=
  body.take (a + 1) ++ news ++ body.drop (a + 1)

/-- The message of the exception Python raises in the anchor-`None`
branch of the insertion (lines 335-339): `doc._body` is a python-docx
proxy object that has no `insert` method and does not delegate attribute
access to the wrapped XML element, so the first `body.insert(0, p_elem)`
call raises.  When nothing was generated the loop body never runs and no
exception occurs. -/
def insertErr : String := "AttributeError: _Body object has no attribute insert"

/-- One repeating-block expansion (lines 262-344): capture the template
slice, remove marker and template paragraphs, append the stray empty
paragraphs at the body end, and splice the generated paragraphs after the
element that preceded the open marker.  When no element precedes the open
marker the anchor is `None` and inserting the first generated paragraph
raises `AttributeError` (there is no working prepend path). -/
def expandBlock (body : List Elem) (i j : Nat) (v : DVal) : Except String (List Elem) :=
  match generateForBlock v (((bodyParas body).drop (i + 1)).take (j - (i + 1))) with
  | .error e => .error e
  | .ok (gens, strays) =>
    if (bodyIdxOfPara body i 0).getD 0 = 0 then
      match gens with
      | [] => .ok (removeParaRange body i j 0 ++ List.replicate strays (Elem.par emptyPara))
      | _ :: _ => .error insertErr
    else
      .ok (insertAfterIdx
        (removeParaRange body i j 0 ++ List.replicate strays (Elem.par emptyPara))
        ((bodyIdxOfPara body i 0).getD 0 - 1) (gens.map Elem.par))

/-- First paragraph index at or after `k` whose text contains the close
marker of `name` (the `closing_idx` search). -/
def findCloseIdx (name : Chars) : List Para → Nat → Option Nat
  | [], _ => none
  | p :: rest, k =>
    if containsSub (closeMarkerOf name) (paraText p) then some k
    else findCloseIdx name rest (k + 1)

/-- The block scan (the `while i < len(all_paragraphs)` loop in its
non-mutating iterations): the first paragraph index whose text matches
the open-marker regex with a list-valued data entry and a later close
marker, together with the closing index and the data value. -/
def scanAux (data : Data) (all : List Para) : List Para → Nat → Option (Nat × Nat × DVal)
  | [], _ => none
  | p :: rest, i =>
    match findOpenMarker (paraText p) with
    | none => scanAux data all rest (i + 1)
    | some name =>
      match dlookup data name with
      | some v =>
        if v.isList then
          match findCloseIdx name (all.drop (i + 1)) (i + 1) with
          | some j => some (i, j, v)
          | none => scanAux data all rest (i + 1)
        else scanAux data all rest (i + 1)
      | none => scanAux data all rest (i + 1)

/-- Scan the whole body for the next expandable repeating block. -/
def scanBlocks (data : Data) (body : List Elem) : Option (Nat × Nat × DVal) :=
  scanAux data (bodyParas body) (bodyParas body) 0

/-- Outcome of the fuelled pipeline: a finished body, a Python exception,
or fuel exhaustion (the source loop restarts from scratch after every
expansion and genuinely may not terminate). -/
inductive BlockRes where
  | done (body : List Elem)
  | raised (msg : String)
  | fuelOut
deriving DecidableEq, Repr

/-- The repeating-block phase: expand the first matching block and
restart the scan from the beginning, until no expandable block remains. -/
def blockPhase (data : Data) : Nat → List Elem → BlockRes
  | 0, _ => .fuelOut
  | fuel + 1, body =>
    match scanBlocks data body with
    | none => .done body
    | some (i, j, v) =>
      match expandBlock body i j v with
      | .error e => .raised e
      | .ok body2 => blockPhase data fuel body2

/-- The two key names the list-expansion stage is hard-wired to
(lines 357-360 of `fill_docx_template`). -/
def keyAchievements : Chars := "KEY_ACHIEVEMENTS".toList

/-- The second hard-wired list-expansion key name. -/
def keyTechStack : Chars := "TECHNICAL_STACK".toList

/-- The guard of the list-expansion stage: the value is a list and the
key is one of the two hard-wired names whose placeholder occurs in the
paragraph text. -/
def stage2Cond (k : Chars) (v : DVal) (p : Para) : Bool :=
  v.isList &&
    ((decide (k = keyAchievements) && containsSub (placeholderOf k) (paraText p)) ||
     (decide (k = keyTechStack) && containsSub (placeholderOf k) (paraText p)))

/-- One data entry of the list-expansion stage applied to the current
paragraph (lines 356-404): the paragraph is updated in place (first item,
style and `pPr` restored) and the sibling paragraphs for the remaining
items are inserted immediately after it, hence in front of siblings
produced by an earlier entry. -/
def stage2Key (kv : Chars × DVal) (st : Para × List Para) : Para × List Para :=
  let para := st.1
  let after := st.2
  let ph := placeholderOf kv.1
  if stage2Cond kv.1 kv.2 para then
    if containsSub ph (paraText para) then
      match listElems kv.2 with
      | it0 :: restItems =>
        let origStyle := styleOfPara para
        let origPPr := para.pPrs.head?.getD freshPP
        let props := (para.runs.find? (fun r => containsSub ph r.text)).map Run.style
        let para1 := replacePlaceholderInRuns para ph it0
        let para2 := setParaStyle para1 origStyle
        let para3 := { para2 with pPrs := origPPr :: para2.pPrs.tail }
        let sibs := restItems.map (fun it =>
          let np1 := setParaStyle emptyPara origStyle
          let np2 := { np1 with pPrs := origPPr :: np1.pPrs }
          setParagraphTextWithFormatting np2 it props)
        (para3, sibs ++ after)
      | [] => (replacePlaceholderInRuns para ph [], after)
    else st
  else st

/-- The list-expansion stage over the whole body: each snapshot paragraph
is processed through all data entries; siblings are inserted right after
it and are not themselves revisited. -/
def expandListPlaceholders (data : Data) : List Elem → List Elem
  | [] => []
  | .tbl t :: rest => .tbl t :: expandListPlaceholders data rest
  | .par p :: rest =>
    let pr := data.foldl (fun st kv => stage2Key kv st) (p, [])
    .par pr.1 :: (pr.2.map Elem.par ++ expandListPlaceholders data rest)

/-- The final scalar pass over one paragraph (lines 409-412): every
scalar-valued data entry whose placeholder occurs in the current text is
substituted, in data order. -/
def fillScalarsInPara (data : Data) (p0 : Para) : Para :=
  data.foldl
    (fun q kv =>
      if kv.2.isScalar ∧ containsSub (placeholderOf kv.1) (paraText q) = true then
        replacePlaceholderInRuns q (placeholderOf kv.1) (strVal kv.2)
      else q)
    p0

/-- The final scalar pass over the body paragraphs. -/
def fillBodyScalars (data : Data) (body : List Elem) : List Elem :=
  body.map (fun e =>
    match e with
    | .par p => .par (fillScalarsInPara data p)
    | .tbl t => .tbl t)

/-- The final scalar pass over every paragraph of every table cell
(lines 414-421). -/
def fillTableScalars (data : Data) (body : List Elem) : List Elem :=
  body.map (fun e =>
    match e with
    | .par p => .par p
    | .tbl t => .tbl { rows := t.rows.map (fun row =>
        row.map (fun cell => cell.map (fillScalarsInPara data))) })

/-- `fill_docx_template(doc, data)`: repeating blocks, then list
placeholders, then remaining scalars in body paragraphs and table cells. -/
def fillDocxTemplate (data : Data) (fuel : Nat) (body : List Elem) : BlockRes :=
  match blockPhase data fuel body with
  | .done b1 =>
    .done (fillTableScalars data (fillBodyScalars data (expandListPlaceholders data b1)))
  | r => r

/-- Python `not paragraph.text.strip()`. -/
def stripBlank (s : Chars) : Bool := s.all Char.isWhitespace

/-- Trailing-trim scan over the reversed body: runless blank paragraphs
are dropped until the first paragraph that fails the emptiness test;
tables are invisible to `document.paragraphs` and are passed over. -/
def trimRev : List Elem → List Elem
  | [] => []
  | .tbl t :: rest => .tbl t :: trimRev rest
  | .par p :: rest =>
    if stripBlank (paraText p) ∧ p.runs = [] then trimRev rest
    else .par p :: rest

/-- `remove_trailing_empty_paragraphs(document)`. -/
def removeTrailingEmptyParagraphs (body : List Elem) : List Elem :=
  (trimRev body.reverse).reverse

/-- The whole pipeline as `main` runs it: `fill_docx_template` followed
by `remove_trailing_empty_paragraphs`. -/
def pipeline (data : Data) (fuel : Nat) (body : List Elem) : BlockRes :=
  match fillDocxTemplate data fuel body with
  | .done b => .done (removeTrailingEmptyParagraphs b)
  | r => r

/-! Helper lemmas about the string utilities. -/

theorem splitOnSubF_ne_nil (pat : Chars) (f : Nat) (s : Chars) :
    splitOnSubF pat f s ≠ [] := by
  induction f generalizing s with
  | zero => cases s <;> simp [splitOnSubF]
  | succ f ih =>
    cases s with
    | nil => simp [splitOnSubF]
    | cons c rest =>
      simp only [splitOnSubF]
      split
      · simp
      · split
        · simp
        · simp

theorem splitOnSub_ne_nil (pat s : Chars) : splitOnSub pat s ≠ [] :=
  splitOnSubF_ne_nil pat s.length s

theorem splitOnSubF_fuelAux (pat : Chars) (n : Nat) :
    ∀ (s : Chars), s.length ≤ n → ∀ (f : Nat), s.length ≤ f →
      splitOnSubF pat f s = splitOnSubF pat s.length s := by
  induction n with
  | zero =>
    intro s hs f _
    have : s = [] := List.eq_nil_of_length_eq_zero (Nat.le_zero.mp hs)
    subst this
    cases f <;> rfl
  | succ n ih =>
    intro s hs f hf
    cases s with
    | nil => cases f <;> rfl
    | cons c rest =>
      cases f with
      | zero => simp at hf
      | succ f =>
        simp only [List.length_cons] at hs hf
        simp only [List.length_cons, splitOnSubF]
        split
        · rename_i hcond
          have hplen : 1 ≤ pat.length := by
            cases hp : pat with
            | nil => exact absurd hp hcond.2
            | cons a b => simp
          have hdn : ((c :: rest).drop pat.length).length ≤ n := by
            simp only [List.length_drop, List.length_cons]; omega
          rw [ih _ hdn f (by simp only [List.length_drop, List.length_cons]; omega),
              ih _ hdn rest.length (by simp only [List.length_drop, List.length_cons]; omega)]
        · rw [ih rest (by omega) f (by omega), ih rest (by omega) rest.length (Nat.le_refl _)]

theorem splitOnSubF_fuel (pat : Chars) (f : Nat) (s : Chars) (h : s.length ≤ f) :
    splitOnSubF pat f s = splitOnSub pat s :=
  splitOnSubF_fuelAux pat s.length s (Nat.le_refl _) f h

theorem splitOnSub_cons_pos (pat : Chars) (c : Char) (rest : Chars)
    (hpat : pat ≠ []) (hpre : pat.isPrefixOf (c :: rest) = true) :
    splitOnSub pat (c :: rest) = [] :: splitOnSub pat ((c :: rest).drop pat.length) := by
  show splitOnSubF pat ((c :: rest).length) (c :: rest) = _
  simp only [List.length_cons, splitOnSubF]
  rw [if_pos ⟨hpre, hpat⟩]
  congr 1
  apply splitOnSubF_fuel
  have hplen : 1 ≤ pat.length := by
    cases hp : pat with
    | nil => exact absurd hp hpat
    | cons a b => simp
  simp only [List.length_drop, List.length_cons]
  omega

theorem splitOnSub_cons_neg (pat : Chars) (c : Char) (rest : Chars)
    (hpre : pat.isPrefixOf (c :: rest) = false) :
    splitOnSub pat (c :: rest) =
      (c :: (splitOnSub pat rest).headI) :: (splitOnSub pat rest).tail := by
  show splitOnSubF pat ((c :: rest).length) (c :: rest) = _
  simp only [List.length_cons, splitOnSubF]
  rw [if_neg (by simp [hpre])]
  rw [splitOnSubF_fuel pat rest.length rest (Nat.le_refl _)]
  rcases hs : splitOnSub pat rest with _ | ⟨h, t⟩
  · exact absurd hs (splitOnSub_ne_nil pat rest)
  · rfl

theorem joinSep_cons_head (sep : Chars) (c : Char) (h : Chars) (t : List Chars) :
    joinSep sep ((c :: h) :: t) = c :: joinSep sep (h :: t) := by
  cases t with
  | nil => rfl
  | cons y ys => simp [joinSep]

theorem joinSep_splitOnSub (pat : Chars) (hpat : pat ≠ []) (s : Chars) :
    joinSep pat (splitOnSub pat s) = s := by
  have main : ∀ n (s : Chars), s.length ≤ n → joinSep pat (splitOnSub pat s) = s := by
    intro n
    induction n with
    | zero =>
      intro s hs
      have : s = [] := List.eq_nil_of_length_eq_zero (Nat.le_zero.mp hs)
      subst this; rfl
    | succ n ih =>
      intro s hs
      cases s with
      | nil => rfl
      | cons c rest =>
        by_cases hpre : pat.isPrefixOf (c :: rest) = true
        · rw [splitOnSub_cons_pos pat c rest hpat hpre]
          have hprefix : pat <+: (c :: rest) := by
            exact List.isPrefixOf_iff_prefix.mp hpre
          obtain ⟨u, hu⟩ := hprefix
          have hdrop : (c :: rest).drop pat.length = u := by
            rw [← hu, List.drop_left]
          have hplen : 1 ≤ pat.length := by
            cases hp : pat with
            | nil => exact absurd hp hpat
            | cons a b => simp
          have hul : u.length ≤ n := by
            have := congrArg List.length hu
            simp only [List.length_append, List.length_cons] at this
            simp only [List.length_cons] at hs
            omega
          rcases hsp : splitOnSub pat ((c :: rest).drop pat.length) with _ | ⟨h, t⟩
          · exact absurd hsp (splitOnSub_ne_nil pat _)
          · have : joinSep pat ([] :: h :: t) = pat ++ joinSep pat (h :: t) := by
              simp [joinSep]
            rw [this, ← hsp, hdrop, ih u hul, hu]
        · rw [splitOnSub_cons_neg pat c rest (by revert hpre; cases pat.isPrefixOf (c :: rest) <;> simp)]
          rcases hsp : splitOnSub pat rest with _ | ⟨h, t⟩
          · exact absurd hsp (splitOnSub_ne_nil pat rest)
          · simp only [List.headI, List.tail]
            rw [joinSep_cons_head]
            have hrl : rest.length ≤ n := by
              simp only [List.length_cons] at hs; omega
            rw [← hsp, ih rest hrl]
  exact main s.length s (Nat.le_refl _)

theorem containsSub_iff (pat s : Chars) : containsSub pat s = true ↔ pat <:+: s := by
  constructor
  · intro h
    obtain ⟨t, ht, hp⟩ := List.any_eq_true.mp h
    exact List.infix_iff_prefix_suffix.mpr
      ⟨t, List.isPrefixOf_iff_prefix.mp hp, (List.mem_tails t s).mp ht⟩
  · intro h
    obtain ⟨t, hp, hsuf⟩ := List.infix_iff_prefix_suffix.mp h
    exact List.any_eq_true.mpr
      ⟨t, (List.mem_tails t s).mpr hsuf, List.isPrefixOf_iff_prefix.mpr hp⟩

theorem containsSub_part (pat x y : Chars) : containsSub pat (x ++ pat ++ y) = true :=
  (containsSub_iff pat _).mpr ⟨x, y, rfl⟩

theorem starMatch_noStar (c : Char) (rest : Chars) (hc : c ≠ '*') :
    starMatch (c :: rest) = none := by
  unfold starMatch
  split
  · rename_i heq; injection heq with h1 _; exact absurd h1 hc
  · rename_i heq; injection heq with h1 _; exact absurd h1 hc
  · rfl

theorem parseMDF_noStar (s : Chars) (hs : ∀ c ∈ s, c ≠ '*') :
    ∀ (fuel : Nat) (acc : Chars),
      parseMDF fuel acc s =
        if acc.reverse ++ s = [] then [] else [(acc.reverse ++ s, false)] := by
  induction s with
  | nil =>
    intro fuel acc
    cases fuel <;> simp [parseMDF]
  | cons c rest ih =>
    intro fuel acc
    cases fuel with
    | zero => rfl
    | succ fuel =>
      have hc : c ≠ '*' := hs c (List.mem_cons_self c rest)
      have hrest : ∀ x ∈ rest, x ≠ '*' := fun x hx => hs x (List.mem_cons_of_mem c hx)
      simp only [parseMDF, starMatch_noStar c rest hc]
      rw [ih hrest fuel (c :: acc)]
      simp

theorem parseMD_noStar (s : Chars) (hs : ∀ c ∈ s, c ≠ '*') :
    parseMarkdownFormatting s = [(s, false)] := by
  unfold parseMarkdownFormatting
  rw [parseMDF_noStar s hs s.length []]
  cases s with
  | nil => simp
  | cons c rest => simp

/-- Shape of a `\x7b\x7b...\x7d\x7d` token: some occurrence of the open
braces with a later occurrence of the close braces.  Every scalar
placeholder, open marker and close marker occurrence implies this. -/
def hasTokenShape (s : Chars) : Bool :=
  s.tails.any fun t =>
    match t with
    | '\x7b' :: '\x7b' :: rest => containsSub ['\x7d', '\x7d'] rest
    | _ => false

theorem hasTokenShape_cons (c : Char) (rest : Chars)
    (h : hasTokenShape rest = true) : hasTokenShape (c :: rest) = true := by
  unfold hasTokenShape at h ⊢
  rw [List.tails_cons, List.any_cons, h]
  simp

theorem hasTokenShape_of_wrapped (k x y : Chars) :
    hasTokenShape (x ++ ('\x7b' :: '\x7b' :: (k ++ ['\x7d', '\x7d'])) ++ y) = true := by
  unfold hasTokenShape
  apply List.any_eq_true.mpr
  refine ⟨'\x7b' :: '\x7b' :: (k ++ ['\x7d', '\x7d']) ++ y, ?_, ?_⟩
  · exact (List.mem_tails _ _).mpr ⟨x, by simp⟩
  · show containsSub ['\x7d', '\x7d'] (k ++ ['\x7d', '\x7d'] ++ y) = true
    exact containsSub_part ['\x7d', '\x7d'] k y

theorem hasTokenShape_of_containsSub (k s : Chars)
    (h : containsSub (placeholderOf k) s = true) : hasTokenShape s = true := by
  obtain ⟨x, y, hxy⟩ := (containsSub_iff _ _).mp h
  subst hxy
  exact hasTokenShape_of_wrapped k x y

theorem hasTokenShape_of_closeMarker (k s : Chars)
    (h : containsSub (closeMarkerOf k) s = true) : hasTokenShape s = true := by
  obtain ⟨x, y, hxy⟩ := (containsSub_iff _ _).mp h
  have : x ++ closeMarkerOf k ++ y = x ++ ('\x7b' :: '\x7b' :: (('/' :: k) ++ ['\x7d', '\x7d'])) ++ y := by
    simp [closeMarkerOf]
  rw [← hxy, this]
  exact hasTokenShape_of_wrapped ('/' :: k) x y

theorem openAt_some (s : Chars) (w : Chars) (h : openAt s = some w) :
    ∃ r, s = '\x7b' :: '\x7b' :: '#' :: r ∧ w = r.takeWhile isWordChar ∧
      ['\x7d', '\x7d'].isPrefixOf (r.drop (r.takeWhile isWordChar).length) = true := by
  unfold openAt at h
  split at h
  · rename_i r
    split at h
    · rename_i hcond
      injection h with h
      exact ⟨r, rfl, h.symm, hcond.2⟩
    · exact absurd h (by simp)
  · exact absurd h (by simp)

theorem hasTokenShape_of_findOpen (s w : Chars)
    (h : findOpenMarker s = some w) : hasTokenShape s = true := by
  induction s with
  | nil => simp [findOpenMarker] at h
  | cons c rest ih =>
    rw [findOpenMarker] at h
    rcases ho : openAt (c :: rest) with _ | w'
    · rw [ho] at h
      exact hasTokenShape_cons c rest (ih h)
    · obtain ⟨r, hshape, _, hclose⟩ := openAt_some _ _ ho
      have hpre : ['\x7d', '\x7d'] <+: r.drop (r.takeWhile isWordChar).length :=
        List.isPrefixOf_iff_prefix.mp hclose
      obtain ⟨u, hu⟩ := hpre
      have hr : r = r.take (r.takeWhile isWordChar).length ++ (['\x7d', '\x7d'] ++ u) := by
        conv_lhs => rw [← List.take_append_drop (r.takeWhile isWordChar).length r]
        rw [← hu]
      have h2 : c :: rest =
          ([] : Chars) ++
            ('\x7b' :: '\x7b' :: (('#' :: r.take (r.takeWhile isWordChar).length) ++ ['\x7d', '\x7d'])) ++ u := by
        rw [hshape]
        conv_lhs => rw [hr]
        simp
      rw [h2]
      exact hasTokenShape_of_wrapped _ [] _

/-! Helper lemmas about the document scan and the pipeline stages. -/

theorem bodyParas_append (a b : List Elem) :
    bodyParas (a ++ b) = bodyParas a ++ bodyParas b := by
  simp [bodyParas]

theorem bodyParas_map_par (ps : List Para) : bodyParas (ps.map Elem.par) = ps := by
  induction ps with
  | nil => rfl
  | cons p t ih => simpa [bodyParas] using ih

theorem bodyParas_replicate_empty (n : Nat) :
    bodyParas (List.replicate n (Elem.par emptyPara)) = List.replicate n emptyPara := by
  induction n with
  | zero => rfl
  | succ n ih => simp [List.replicate_succ, bodyParas]

theorem findCloseIdx_cons_neg (name : Chars) (p : Para) (rest : List Para) (k : Nat)
    (hp : containsSub (closeMarkerOf name) (paraText p) = false) :
    findCloseIdx name (p :: rest) k = findCloseIdx name rest (k + 1) := by
  simp [findCloseIdx, hp]

theorem findCloseIdx_skip (name : Chars) (ps rest : List Para) (k : Nat)
    (h : ∀ p ∈ ps, containsSub (closeMarkerOf name) (paraText p) = false) :
    findCloseIdx name (ps ++ rest) k = findCloseIdx name rest (k + ps.length) := by
  induction ps generalizing k with
  | nil => simp
  | cons p t ih =>
    rw [List.cons_append,
        findCloseIdx_cons_neg name p (t ++ rest) k (h p (List.mem_cons_self p t)),
        ih (k + 1) (fun q hq => h q (List.mem_cons_of_mem p hq))]
    congr 1
    simp only [List.length_cons]
    omega

theorem findCloseIdx_hit (name : Chars) (p : Para) (rest : List Para) (k : Nat)
    (h : containsSub (closeMarkerOf name) (paraText p) = true) :
    findCloseIdx name (p :: rest) k = some k := by
  simp [findCloseIdx, h]

theorem scanAux_cons_none (data : Data) (all : List Para) (p : Para) (rest : List Para)
    (i : Nat) (hp : findOpenMarker (paraText p) = none) :
    scanAux data all (p :: rest) i = scanAux data all rest (i + 1) := by
  simp [scanAux, hp]

theorem scanAux_skip (data : Data) (all ps rest : List Para) (i : Nat)
    (h : ∀ p ∈ ps, findOpenMarker (paraText p) = none) :
    scanAux data all (ps ++ rest) i = scanAux data all rest (i + ps.length) := by
  induction ps generalizing i with
  | nil => simp
  | cons p t ih =>
    rw [List.cons_append,
        scanAux_cons_none data all p (t ++ rest) i (h p (List.mem_cons_self p t)),
        ih (i + 1) (fun q hq => h q (List.mem_cons_of_mem p hq))]
    congr 1
    simp only [List.length_cons]
    omega

theorem scanAux_hit (data : Data) (all : List Para) (p : Para) (rest : List Para)
    (i j : Nat) (name : Chars) (v : DVal)
    (hopen : findOpenMarker (paraText p) = some name)
    (hdata : dlookup data name = some v)
    (hlist : v.isList = true)
    (hclose : findCloseIdx name (all.drop (i + 1)) (i + 1) = some j) :
    scanAux data all (p :: rest) i = some (i, j, v) := by
  simp [scanAux, hopen, hdata, hlist, hclose]

theorem scanAux_none (data : Data) (all ps : List Para) (i : Nat)
    (h : ∀ p ∈ ps, ∀ name, findOpenMarker (paraText p) = some name →
         ∀ v, dlookup data name = some v → v.isList = false) :
    scanAux data all ps i = none := by
  induction ps generalizing i with
  | nil => rfl
  | cons p t ih =>
    have ht : ∀ q ∈ t, ∀ name, findOpenMarker (paraText q) = some name →
        ∀ v, dlookup data name = some v → v.isList = false :=
      fun q hq => h q (List.mem_cons_of_mem p hq)
    rcases ho : findOpenMarker (paraText p) with _ | name
    · simp only [scanAux, ho]
      exact ih (i + 1) ht
    · rcases hd : dlookup data name with _ | v
      · simp only [scanAux, ho, hd]
        exact ih (i + 1) ht
      · have : v.isList = false := h p (List.mem_cons_self p t) name ho v hd
        simp only [scanAux, ho, hd, this]
        rw [if_neg (by simp)]
        exact ih (i + 1) ht

theorem removeParaRange_keep (A rest : List Elem) (i j : Nat) :
    ∀ k, k + (bodyParas A).length ≤ i →
      removeParaRange (A ++ rest) i j k =
        A ++ removeParaRange rest i j (k + (bodyParas A).length) := by
  induction A with
  | nil => intro k h; simp [bodyParas]
  | cons e t ih =>
    intro k h
    cases e with
    | tbl tb =>
      have hb : bodyParas (Elem.tbl tb :: t) = bodyParas t := by simp [bodyParas]
      rw [hb] at h ⊢
      rw [List.cons_append]
      show Elem.tbl tb :: removeParaRange (t ++ rest) i j k = _
      rw [ih k h]
      simp
    | par p =>
      have hb : bodyParas (Elem.par p :: t) = p :: bodyParas t := by simp [bodyParas]
      rw [hb] at h ⊢
      simp only [List.length_cons] at h ⊢
      rw [List.cons_append]
      show (if i ≤ k ∧ k ≤ j then removeParaRange (t ++ rest) i j (k + 1)
            else Elem.par p :: removeParaRange (t ++ rest) i j (k + 1)) = _
      rw [if_neg (by omega)]
      rw [ih (k + 1) (by omega)]
      have harith : k + 1 + (bodyParas t).length = k + ((bodyParas t).length + 1) := by omega
      rw [harith]
      simp

theorem removeParaRange_consume (ms : List Para) (rest : List Elem) (i j : Nat) :
    ∀ k, i ≤ k → k + ms.length ≤ j + 1 →
      removeParaRange (ms.map Elem.par ++ rest) i j k =
        removeParaRange rest i j (k + ms.length) := by
  induction ms with
  | nil => intro k _ _; simp
  | cons p t ih =>
    intro k hik hkj
    simp only [List.length_cons] at hkj
    rw [List.map_cons, List.cons_append]
    show (if i ≤ k ∧ k ≤ j then removeParaRange (t.map Elem.par ++ rest) i j (k + 1)
          else Elem.par p :: removeParaRange (t.map Elem.par ++ rest) i j (k + 1)) = _
    rw [if_pos ⟨hik, by omega⟩]
    rw [ih (k + 1) (by omega) (by omega)]
    have harith : k + 1 + t.length = k + (t.length + 1) := by omega
    rw [harith]
    simp

theorem removeParaRange_after (rest : List Elem) (i j : Nat) :
    ∀ k, j < k → removeParaRange rest i j k = rest := by
  induction rest with
  | nil => intro k _; rfl
  | cons e t ih =>
    intro k h
    cases e with
    | tbl tb =>
      show Elem.tbl tb :: removeParaRange t i j k = _
      rw [ih k h]
    | par p =>
      show (if i ≤ k ∧ k ≤ j then removeParaRange t i j (k + 1)
            else Elem.par p :: removeParaRange t i j (k + 1)) = _
      rw [if_neg (by omega), ih (k + 1) (by omega)]

theorem bodyIdxOfPara_concat (A : List Elem) (p : Para) (rest : List Elem) :
    ∀ pos, bodyIdxOfPara (A ++ Elem.par p :: rest) (bodyParas A).length pos = some (pos + A.length) := by
  induction A with
  | nil =>
    intro pos
    simp [bodyParas, bodyIdxOfPara]
  | cons e t ih =>
    intro pos
    cases e with
    | tbl tb =>
      have hb : bodyParas (Elem.tbl tb :: t) = bodyParas t := by simp [bodyParas]
      rw [hb, List.cons_append]
      show bodyIdxOfPara (t ++ Elem.par p :: rest) (bodyParas t).length (pos + 1) = _
      rw [ih (pos + 1)]
      have harith : pos + 1 + t.length = pos + (Elem.tbl tb :: t).length := by
        simp only [List.length_cons]; omega
      rw [harith]
    | par q =>
      have hb : bodyParas (Elem.par q :: t) = q :: bodyParas t := by simp [bodyParas]
      rw [hb, List.cons_append]
      show (if (q :: bodyParas t).length = 0 then some pos
            else bodyIdxOfPara (t ++ Elem.par p :: rest) ((q :: bodyParas t).length - 1) (pos + 1)) = _
      rw [if_neg (by simp)]
      simp only [List.length_cons, Nat.add_sub_cancel]
      rw [ih (pos + 1)]
      have harith : pos + 1 + t.length = pos + (Elem.par q :: t).length := by
        simp only [List.length_cons]; omega
      rw [harith]
      simp only [List.length_cons]

theorem bodyParas_block_shape (openP closeP : Para) (tpl : List Para) (C : List Elem) :
    bodyParas (Elem.par openP :: (tpl.map Elem.par ++ Elem.par closeP :: C)) =
      openP :: (tpl ++ closeP :: bodyParas C) := by
  have h1 : bodyParas (Elem.par closeP :: C) = closeP :: bodyParas C := by simp [bodyParas]
  have h2 : bodyParas (Elem.par openP :: (tpl.map Elem.par ++ Elem.par closeP :: C)) =
      openP :: bodyParas (tpl.map Elem.par ++ Elem.par closeP :: C) := by simp [bodyParas]
  rw [h2, bodyParas_append, bodyParas_map_par, h1]

theorem expandBlock_decomp (A C : List Elem) (openP closeP : Para) (tpl : List Para) (v : DVal)
    (hA : A ≠ []) :
    expandBlock (A ++ Elem.par openP :: (tpl.map Elem.par ++ Elem.par closeP :: C))
        (bodyParas A).length ((bodyParas A).length + tpl.length + 1) v =
      match generateForBlock v tpl with
      | .error e => .error e
      | .ok (gens, strays) =>
        .ok (A ++ gens.map Elem.par ++ (C ++ List.replicate strays (Elem.par emptyPara))) := by
  have hparas : bodyParas (A ++ Elem.par openP :: (tpl.map Elem.par ++ Elem.par closeP :: C)) =
      (bodyParas A ++ [openP]) ++ (tpl ++ closeP :: bodyParas C) := by
    rw [bodyParas_append, bodyParas_block_shape]
    simp
  have hlen1 : (bodyParas A ++ [openP]).length = (bodyParas A).length + 1 := by simp
  have htpl : ((bodyParas (A ++ Elem.par openP :: (tpl.map Elem.par ++ Elem.par closeP :: C))).drop
      ((bodyParas A).length + 1)).take
        ((bodyParas A).length + tpl.length + 1 - ((bodyParas A).length + 1)) = tpl := by
    rw [hparas, show (bodyParas A).length + 1 = (bodyParas A ++ [openP]).length from hlen1.symm,
        List.drop_left]
    have h2 : (bodyParas A).length + tpl.length + 1 - (bodyParas A ++ [openP]).length = tpl.length := by
      rw [hlen1]; omega
    rw [h2, List.take_left]
  have hidx : (bodyIdxOfPara (A ++ Elem.par openP :: (tpl.map Elem.par ++ Elem.par closeP :: C))
      (bodyParas A).length 0).getD 0 = A.length := by
    rw [bodyIdxOfPara_concat A openP _ 0]
    simp
  have hbody1 : removeParaRange (A ++ Elem.par openP :: (tpl.map Elem.par ++ Elem.par closeP :: C))
      (bodyParas A).length ((bodyParas A).length + tpl.length + 1) 0 = A ++ C := by
    have hshape : A ++ Elem.par openP :: (tpl.map Elem.par ++ Elem.par closeP :: C) =
        A ++ ((openP :: (tpl ++ [closeP])).map Elem.par ++ C) := by
      simp
    rw [hshape]
    rw [removeParaRange_keep A _ _ _ 0 (by omega)]
    rw [removeParaRange_consume (openP :: (tpl ++ [closeP])) C _ _ _ (by omega)
      (by simp; omega)]
    rw [removeParaRange_after C _ _ _ (by simp; omega)]
  unfold expandBlock
  rw [htpl]
  rcases hg : generateForBlock v tpl with e | ⟨gens, strays⟩
  · simp
  · simp only
    rw [hidx, hbody1]
    rcases A with _ | ⟨e0, A'⟩
    · exact absurd rfl hA
    · rw [if_neg (by simp)]
      unfold insertAfterIdx
      have h1 : (e0 :: A').length - 1 + 1 = (e0 :: A').length := by simp
      rw [h1, List.append_assoc (e0 :: A') C _, List.take_left, List.drop_left]

theorem dlookup_single (k : Chars) (v : DVal) : dlookup [(k, v)] k = some v := by
  simp [dlookup]

theorem map_id_of_mem {α : Type} (l : List α) (f : α → α) (h : ∀ x ∈ l, f x = x) :
    l.map f = l := by
  induction l with
  | nil => rfl
  | cons x t ih =>
    rw [List.map_cons, h x (List.mem_cons_self x t),
        ih (fun y hy => h y (List.mem_cons_of_mem x hy))]

theorem stage2Cond_false_of_notkeys (k : Chars) (v : DVal) (p : Para)
    (h1 : k ≠ keyAchievements) (h2 : k ≠ keyTechStack) : stage2Cond k v p = false := by
  simp [stage2Cond, h1, h2]

theorem stage2Cond_false_of_nosub (k : Chars) (v : DVal) (p : Para)
    (h : containsSub (placeholderOf k) (paraText p) = false) : stage2Cond k v p = false := by
  simp [stage2Cond, h]

theorem stage2Key_skip (kv : Chars × DVal) (st : Para × List Para)
    (h : stage2Cond kv.1 kv.2 st.1 = false) : stage2Key kv st = st := by
  simp [stage2Key, h]

theorem stage2_foldl_const (data : Data) (st : Para × List Para)
    (h : ∀ kv ∈ data, stage2Key kv st = st) :
    data.foldl (fun s kv => stage2Key kv s) st = st := by
  induction data with
  | nil => rfl
  | cons kv t ih =>
    rw [List.foldl_cons, h kv (List.mem_cons_self kv t)]
    exact ih (fun x hx => h x (List.mem_cons_of_mem kv hx))

theorem expandListPlaceholders_append (data : Data) (x y : List Elem) :
    expandListPlaceholders data (x ++ y) =
      expandListPlaceholders data x ++ expandListPlaceholders data y := by
  induction x with
  | nil => rfl
  | cons e t ih =>
    cases e with
    | tbl tb =>
      rw [List.cons_append]
      show Elem.tbl tb :: expandListPlaceholders data (t ++ y) = _
      rw [ih]
      rfl
    | par p =>
      rw [List.cons_append]
      show Elem.par (data.foldl (fun st kv => stage2Key kv st) (p, [])).1 ::
          ((data.foldl (fun st kv => stage2Key kv st) (p, [])).2.map Elem.par ++
            expandListPlaceholders data (t ++ y)) = _
      rw [ih]
      show _ = Elem.par (data.foldl (fun st kv => stage2Key kv st) (p, [])).1 ::
          ((data.foldl (fun st kv => stage2Key kv st) (p, [])).2.map Elem.par ++
            expandListPlaceholders data t) ++ expandListPlaceholders data y
      simp

theorem expandListPlaceholders_id (data : Data) (body : List Elem)
    (h : ∀ p ∈ bodyParas body, ∀ kv ∈ data, stage2Key kv (p, []) = (p, [])) :
    expandListPlaceholders data body = body := by
  induction body with
  | nil => rfl
  | cons e t ih =>
    have ht : ∀ p ∈ bodyParas t, ∀ kv ∈ data, stage2Key kv (p, []) = (p, []) := by
      intro p hp
      apply h
      cases e <;> simp [bodyParas] at hp ⊢ <;> tauto
    cases e with
    | tbl tb =>
      show Elem.tbl tb :: expandListPlaceholders data t = _
      rw [ih ht]
    | par p =>
      have hp : ∀ kv ∈ data, stage2Key kv (p, []) = (p, []) := by
        apply h
        simp [bodyParas]
      show Elem.par (data.foldl (fun st kv => stage2Key kv st) (p, [])).1 ::
          ((data.foldl (fun st kv => stage2Key kv st) (p, [])).2.map Elem.par ++
            expandListPlaceholders data t) = _
      rw [stage2_foldl_const data (p, []) hp, ih ht]
      rfl

theorem expandListPlaceholders_id_of_notkeys (data : Data) (body : List Elem)
    (h : ∀ kv ∈ data, kv.1 ≠ keyAchievements ∧ kv.1 ≠ keyTechStack) :
    expandListPlaceholders data body = body := by
  apply expandListPlaceholders_id
  intro p _ kv hkv
  exact stage2Key_skip kv (p, [])
    (stage2Cond_false_of_notkeys kv.1 kv.2 p (h kv hkv).1 (h kv hkv).2)

theorem expandListPlaceholders_id_of_nosub (data : Data) (body : List Elem)
    (h : ∀ p ∈ bodyParas body, ∀ kv ∈ data,
      containsSub (placeholderOf kv.1) (paraText p) = false) :
    expandListPlaceholders data body = body := by
  apply expandListPlaceholders_id
  intro p hp kv hkv
  exact stage2Key_skip kv (p, []) (stage2Cond_false_of_nosub kv.1 kv.2 p (h p hp kv hkv))

theorem fillScalarsInPara_id (data : Data) (p : Para)
    (h : ∀ kv ∈ data, kv.2.isScalar = false ∨
      containsSub (placeholderOf kv.1) (paraText p) = false) :
    fillScalarsInPara data p = p := by
  unfold fillScalarsInPara
  induction data with
  | nil => rfl
  | cons kv t ih =>
    rw [List.foldl_cons]
    have hstep : (if kv.2.isScalar ∧ containsSub (placeholderOf kv.1) (paraText p) = true
        then replacePlaceholderInRuns p (placeholderOf kv.1) (strVal kv.2) else p) = p := by
      rcases h kv (List.mem_cons_self kv t) with hs | hc
      · rw [if_neg]; intro hcon; rw [hs] at hcon; exact absurd hcon.1 (by simp)
      · rw [if_neg]; intro hcon; rw [hc] at hcon; exact absurd hcon.2 (by simp)
    rw [hstep]
    exact ih (fun x hx => h x (List.mem_cons_of_mem kv hx))

theorem fillBodyScalars_id (data : Data) (body : List Elem)
    (h : ∀ p ∈ bodyParas body, fillScalarsInPara data p = p) :
    fillBodyScalars data body = body := by
  unfold fillBodyScalars
  apply map_id_of_mem
  intro e he
  cases e with
  | tbl tb => rfl
  | par p =>
    simp only
    rw [h p]
    have : p ∈ bodyParas body := by
      unfold bodyParas
      exact List.mem_filterMap.mpr ⟨Elem.par p, he, rfl⟩
    exact this

/-- The paragraphs sitting inside table cells of the body. -/
def tableParas (body : List Elem) : List Para :=
  (body.map (fun e =>
    match e with
    | .par _ => []
    | .tbl t => t.rows.flatten.flatten)).flatten

theorem fillTableScalars_id (data : Data) (body : List Elem)
    (h : ∀ p ∈ tableParas body, fillScalarsInPara data p = p) :
    fillTableScalars data body = body := by
  unfold fillTableScalars
  apply map_id_of_mem
  intro e he
  cases e with
  | par p => rfl
  | tbl tb =>
    simp only
    have hcells : ∀ p ∈ tb.rows.flatten.flatten, fillScalarsInPara data p = p := by
      intro p hp
      apply h
      unfold tableParas
      apply List.mem_flatten.mpr
      refine ⟨tb.rows.flatten.flatten, ?_, hp⟩
      apply List.mem_map.mpr
      exact ⟨Elem.tbl tb, he, rfl⟩
    have hrows : tb.rows.map (fun row => row.map (fun cell => cell.map (fillScalarsInPara data))) = tb.rows := by
      apply map_id_of_mem
      intro row hrow
      apply map_id_of_mem
      intro cell hcell
      apply map_id_of_mem
      intro p hp
      apply hcells
      exact List.mem_flatten.mpr ⟨cell, List.mem_flatten.mpr ⟨row, hrow, hcell⟩, hp⟩
    rw [hrows]

theorem trimRev_keep (p : Para) (rest : List Elem) (h : p.runs ≠ []) :
    trimRev (Elem.par p :: rest) = Elem.par p :: rest := by
  unfold trimRev
  rw [if_neg (by intro hcon; exact h hcon.2)]

theorem trimRev_replicate (n : Nat) (rest : List Elem) :
    trimRev (List.replicate n (Elem.par emptyPara) ++ rest) = trimRev rest := by
  induction n with
  | zero => simp
  | succ n ih =>
    rw [List.replicate_succ, List.cons_append]
    show (if stripBlank (paraText emptyPara) ∧ emptyPara.runs = []
          then trimRev (List.replicate n (Elem.par emptyPara) ++ rest)
          else Elem.par emptyPara :: (List.replicate n (Elem.par emptyPara) ++ rest)) = _
    rw [if_pos (by constructor <;> rfl)]
    exact ih

theorem removeTrailing_strays (x : List Elem) (q : Para) (n : Nat) (h : q.runs ≠ []) :
    removeTrailingEmptyParagraphs
        (x ++ Elem.par q :: List.replicate n (Elem.par emptyPara)) =
      x ++ [Elem.par q] := by
  unfold removeTrailingEmptyParagraphs
  rw [List.reverse_append, List.reverse_cons, List.append_assoc, List.reverse_replicate]
  rw [show List.replicate n (Elem.par emptyPara) ++ ([Elem.par q] ++ x.reverse) =
      List.replicate n (Elem.par emptyPara) ++ (Elem.par q :: x.reverse) from by simp]
  rw [trimRev_replicate, trimRev_keep q x.reverse h]
  simp

theorem blockPhase_done (data : Data) (fuel : Nat) (body : List Elem)
    (h : scanBlocks data body = none) : blockPhase data (fuel + 1) body = .done body := by
  simp [blockPhase, h]

theorem blockPhase_step (data : Data) (fuel : Nat) (body b2 : List Elem) (i j : Nat) (v : DVal)
    (h : scanBlocks data body = some (i, j, v)) (he : expandBlock body i j v = .ok b2) :
    blockPhase data (fuel + 1) body = blockPhase data fuel b2 := by
  simp [blockPhase, h, he]

theorem pipeline_of_blockPhase (data : Data) (fuel : Nat) (body b : List Elem)
    (h : blockPhase data fuel body = .done b) :
    pipeline data fuel body =
      .done (removeTrailingEmptyParagraphs
        (fillTableScalars data (fillBodyScalars data (expandListPlaceholders data b)))) := by
  simp [pipeline, fillDocxTemplate, h]

/-! Shared concrete fixtures used by the claim theorems below. -/

/-- The all-inherit run style (every attribute `None`). -/
def noStyle : RunStyle :=
  { bold := none, italic := none, underline := none, fontName := none, size := none, color := none }

/-- The all-inherit style with bold set. -/
def boldStyle : RunStyle := { noStyle with bold := some true }

/-- A one-run paragraph with the given text and inherited style. -/
def mkP (s : Chars) : Para := { runs := [{ text := s, style := noStyle }], pPrs := [] }

/-! Claim C4. -/

/-- The paragraph whose placeholder is split across two runs: the first
run holds the first three characters of the token, the second run the
rest (with a different style). -/
def c4para : Para :=
  { runs := [{ text := (placeholderOf ("NAME".toList)).take 3, style := noStyle },
             { text := (placeholderOf ("NAME".toList)).drop 3, style := boldStyle }],
    pPrs := [] }

/-- C4: the claim says the splitter still replaces a token that is split
across adjacent runs; the code contradicts its own docstring ("handles
placeholders that may span across multiple runs"): the paragraph's full
text contains the token, yet `_replace_placeholder_in_runs` finds no run
containing it and returns the paragraph completely unchanged. -/
theorem c4_split_token_ignored :
    containsSub (placeholderOf ("NAME".toList)) (paraText c4para) = true ∧
      replacePlaceholderInRuns c4para (placeholderOf ("NAME".toList)) ("value".toList) = c4para := by
  decide

/-! Claim C6. -/

/-- C6: substituting a markup-free value into a single bold run whose text
is a prefix followed by the scalar token produces exactly two runs - the
prefix and the replacement - both carrying the original run's inherited
style, whose bold flag is still set. -/
theorem c6_replacement_inherits_style (key pre v : Chars) (st : RunStyle) (fmt : List PP)
    (hbold : st.bold = some true)
    (hpre : pre ≠ []) (hv : v ≠ [])
    (hpreStar : ∀ c ∈ pre, c ≠ '*') (hvStar : ∀ c ∈ v, c ≠ '*')
    (hsplit : splitOnSub (placeholderOf key) (pre ++ placeholderOf key) = [pre, []]) :
    replacePlaceholderInRuns
        { runs := [{ text := pre ++ placeholderOf key, style := st }], pPrs := fmt }
        (placeholderOf key) v =
      { runs := [{ text := pre, style := applyInherited st false },
                 { text := v, style := applyInherited st false }], pPrs := fmt } ∧
    (applyInherited st false).bold = some true := by
  constructor
  · have hcont : containsSub (placeholderOf key) (pre ++ placeholderOf key) = true := by
      have := containsSub_part (placeholderOf key) pre []
      simpa using this
    unfold replacePlaceholderInRuns
    simp only [List.map_cons, List.map_nil]
    rw [show segReplace (placeholderOf key) v { text := pre ++ placeholderOf key, style := st } =
        ([{ text := pre, style := st }, { text := v, style := st },
          { text := [], style := st }], true) from by
      unfold segReplace
      rw [hcont, if_pos rfl, hsplit]
      simp [hpre]]
    simp [runsOfSegment, parseMD_noStar pre hpreStar, parseMD_noStar v hvStar, hpre, hv]
  · simp [applyInherited, hbold]

/-- C6 witness: the spec's own example, `"Built "` prefix with a bold
run and the replacement `"5 services"`. -/
theorem c6_replacement_inherits_style_witness :
    replacePlaceholderInRuns
        { runs := [{ text := ("Built ".toList) ++ placeholderOf ("X".toList), style := boldStyle }],
          pPrs := [] }
        (placeholderOf ("X".toList)) ("5 services".toList) =
      { runs := [{ text := "Built ".toList, style := applyInherited boldStyle false },
                 { text := "5 services".toList, style := applyInherited boldStyle false }],
        pPrs := [] } ∧
    (applyInherited boldStyle false).bold = some true :=
  c6_replacement_inherits_style ("X".toList) ("Built ".toList) ("5 services".toList)
    boldStyle [] (by decide) (by decide) (by decide) (by decide) (by decide) (by decide)

/-! Claim C10. -/

theorem segReplace_texts (ph v w p0 p1 : Chars) (rest : List Chars) (s : RunStyle)
    (hsplit : splitOnSub ph w = p0 :: p1 :: rest)
    (hcont : containsSub ph w = true)
    (h0 : ∀ c ∈ p0, c ≠ '*') (hv : ∀ c ∈ v, c ≠ '*')
    (hf : ∀ c ∈ (p1 :: rest).flatten, c ≠ '*') :
    ((((segReplace ph v { text := w, style := s }).1.filter
        (fun r => r.text ≠ [])).map runsOfSegment).flatten).map Run.text =
      [p0, v, (p1 :: rest).flatten].filter (fun x => x ≠ []) := by
  rw [show segReplace ph v { text := w, style := s } =
      ((if p0 ≠ [] then [{ text := p0, style := s }] else []) ++
        [{ text := v, style := s }] ++ [{ text := (p1 :: rest).flatten, style := s }], true) from by
    unfold segReplace
    rw [hcont, if_pos rfl, hsplit]
    simp]
  rw [show ([p0, v, (p1 :: rest).flatten] : List Chars) = [p0, v, (p1 :: rest).flatten] from rfl]
  generalize hq : (p1 :: rest).flatten = q at hf ⊢
  by_cases h0e : p0 = [] <;> by_cases hve : v = [] <;> by_cases hfe : q = [] <;>
    simp [h0e, hve, hfe, runsOfSegment, parseMD_noStar p0 h0, parseMD_noStar v hv,
      parseMD_noStar q hf]

/-- C10: when the scalar token occurs twice inside one single run, the
splitter replaces the first occurrence with the value and deletes every
later occurrence outright (the surrounding text is concatenated with the
token removed), while a token occurring in a distinct run is replaced
with the value as well.  The last two conjuncts reconstruct the original
texts, showing where the token occurrences stood. -/
theorem c10_repeated_occurrences (key v w1 w2 a b c d e : Chars) (s1 s2 : RunStyle)
    (fmt : List PP)
    (hsplit1 : splitOnSub (placeholderOf key) w1 = [a, b, c])
    (hsplit2 : splitOnSub (placeholderOf key) w2 = [d, e])
    (hcont1 : containsSub (placeholderOf key) w1 = true)
    (hcont2 : containsSub (placeholderOf key) w2 = true)
    (ha : ∀ ch ∈ a, ch ≠ '*') (hv : ∀ ch ∈ v, ch ≠ '*')
    (hbc : ∀ ch ∈ b ++ c, ch ≠ '*')
    (hd : ∀ ch ∈ d, ch ≠ '*') (he : ∀ ch ∈ e, ch ≠ '*') :
    (replacePlaceholderInRuns { runs := [{ text := w1, style := s1 }, { text := w2, style := s2 }], pPrs := fmt }
        (placeholderOf key) v).runs.map Run.text =
      ([a, v, b ++ c].filter (fun x => x ≠ [])) ++ ([d, v, e].filter (fun x => x ≠ [])) ∧
    w1 = a ++ placeholderOf key ++ (b ++ placeholderOf key ++ c) ∧
    w2 = d ++ placeholderOf key ++ e := by
  have hph : placeholderOf key ≠ [] := by simp [placeholderOf]
  refine ⟨?_, ?_, ?_⟩
  · have hfound : (segReplace (placeholderOf key) v { text := w1, style := s1 }).2 = true := by
      unfold segReplace
      rw [hcont1, if_pos rfl]
    have e1 := segReplace_texts (placeholderOf key) v w1 a b [c] s1 hsplit1 hcont1 ha hv
      (by simpa using hbc)
    have e2 := segReplace_texts (placeholderOf key) v w2 d e [] s2 hsplit2 hcont2 hd hv
      (by simpa using he)
    unfold replacePlaceholderInRuns
    simp only [List.map_cons, List.map_nil, List.any_cons, List.any_nil, hfound,
      Bool.true_or, if_true, List.flatten_cons, List.flatten_nil, List.append_nil,
      List.filter_append, List.map_append, List.flatten_append]
    rw [e1, e2]
    simp
  · have := joinSep_splitOnSub (placeholderOf key) hph w1
    rw [hsplit1] at this
    rw [← this]
    simp [joinSep, List.append_assoc]
  · have := joinSep_splitOnSub (placeholderOf key) hph w2
    rw [hsplit2] at this
    rw [← this]
    simp [joinSep, List.append_assoc]

/-- C10 witness: `"a\x7b\x7bX\x7d\x7db\x7b\x7bX\x7d\x7dc"` in one run plus
`"d\x7b\x7bX\x7d\x7de"` in a second run. -/
theorem c10_repeated_occurrences_witness :
    (replacePlaceholderInRuns
        { runs := [{ text := "a".toList ++ placeholderOf ("X".toList) ++
                      ("b".toList ++ placeholderOf ("X".toList) ++ "c".toList), style := noStyle },
                   { text := "d".toList ++ placeholderOf ("X".toList) ++ "e".toList, style := boldStyle }],
          pPrs := [] }
        (placeholderOf ("X".toList)) ("V".toList)).runs.map Run.text =
      (["a".toList, "V".toList, "b".toList ++ "c".toList].filter (fun x => x ≠ [])) ++
        (["d".toList, "V".toList, "e".toList].filter (fun x => x ≠ [])) ∧
    "a".toList ++ placeholderOf ("X".toList) ++
        ("b".toList ++ placeholderOf ("X".toList) ++ "c".toList) =
      "a".toList ++ placeholderOf ("X".toList) ++
        ("b".toList ++ placeholderOf ("X".toList) ++ "c".toList) ∧
    "d".toList ++ placeholderOf ("X".toList) ++ "e".toList =
      "d".toList ++ placeholderOf ("X".toList) ++ "e".toList :=
  c10_repeated_occurrences ("X".toList) ("V".toList) _ _ ("a".toList) ("b".toList) ("c".toList)
    ("d".toList) ("e".toList) noStyle boldStyle [] (by decide) (by decide) (by decide) (by decide)
    (by decide) (by decide) (by decide) (by decide) (by decide)

theorem expandListPlaceholders_single_par (data : Data) (p : Para) :
    expandListPlaceholders data [Elem.par p] =
      Elem.par (data.foldl (fun st kv => stage2Key kv st) (p, [])).1 ::
        (data.foldl (fun st kv => stage2Key kv st) (p, [])).2.map Elem.par := by
  simp [expandListPlaceholders]

/-! Claim C7. -/

/-- C7: an empty list value for a list placeholder leaves the paragraph
in place (no deletion, no siblings): the list-expansion stage maps the
paragraph to itself with the token removed by the splitter, keeping all
surrounding text, and inserts nothing. -/
theorem c7_empty_list_in_place (A B : List Elem) (p : Para) (r : Run) (a b : Chars)
    (hA : ∀ q ∈ bodyParas A, containsSub (placeholderOf keyAchievements) (paraText q) = false)
    (hB : ∀ q ∈ bodyParas B, containsSub (placeholderOf keyAchievements) (paraText q) = false)
    (hruns : p.runs = [r])
    (hcont : containsSub (placeholderOf keyAchievements) r.text = true)
    (hsplit : splitOnSub (placeholderOf keyAchievements) r.text = [a, b])
    (hstarA : ∀ c ∈ a, c ≠ '*') (hstarB : ∀ c ∈ b, c ≠ '*') :
    expandListPlaceholders [(keyAchievements, DVal.slist [])] (A ++ Elem.par p :: B) =
      A ++ Elem.par (replacePlaceholderInRuns p (placeholderOf keyAchievements) []) :: B ∧
    paraText (replacePlaceholderInRuns p (placeholderOf keyAchievements) []) = a ++ b := by
  have hptext : paraText p = r.text := by
    unfold paraText
    rw [hruns]
    simp
  have hcontp : containsSub (placeholderOf keyAchievements) (paraText p) = true := by
    rw [hptext]; exact hcont
  constructor
  · have hstep : stage2Key (keyAchievements, DVal.slist []) (p, []) =
        (replacePlaceholderInRuns p (placeholderOf keyAchievements) [], []) := by
      simp [stage2Key, stage2Cond, hcontp, listElems, DVal.isList]
    rw [show A ++ Elem.par p :: B = A ++ ([Elem.par p] ++ B) from by simp]
    rw [expandListPlaceholders_append, expandListPlaceholders_append]
    rw [expandListPlaceholders_id_of_nosub _ A (by
      intro q hq kv hkv
      rw [List.mem_singleton] at hkv
      subst hkv
      exact hA q hq)]
    rw [expandListPlaceholders_id_of_nosub _ B (by
      intro q hq kv hkv
      rw [List.mem_singleton] at hkv
      subst hkv
      exact hB q hq)]
    rw [expandListPlaceholders_single_par, List.foldl_cons, List.foldl_nil, hstep]
    simp
  · have htexts := segReplace_texts (placeholderOf keyAchievements) [] r.text a b [] r.style
      hsplit hcont hstarA (by simp) (by simpa using hstarB)
    have hfound : (segReplace (placeholderOf keyAchievements) [] r).2 = true := by
      unfold segReplace
      rw [hcont, if_pos rfl]
    unfold replacePlaceholderInRuns
    rw [hruns]
    simp only [List.map_cons, List.map_nil, List.any_cons, List.any_nil, hfound,
      Bool.or_false, if_true, List.flatten_cons, List.flatten_nil, List.append_nil]
    unfold paraText
    simp only
    rw [show (segReplace (placeholderOf keyAchievements) [] r) =
        (segReplace (placeholderOf keyAchievements) [] { text := r.text, style := r.style }) from by
      rfl]
    rw [htexts]
    by_cases hae : a = [] <;> by_cases hbe : b = [] <;> simp [hae, hbe]

/-- C7 witness: a paragraph `"see \x7b\x7bKEY_ACHIEVEMENTS\x7d\x7d here"`
with an empty achievements list. -/
theorem c7_empty_list_in_place_witness :
    expandListPlaceholders [(keyAchievements, DVal.slist [])]
        ([] ++ Elem.par (mkP ("see ".toList ++ placeholderOf keyAchievements ++ " here".toList)) :: []) =
      [] ++ Elem.par (replacePlaceholderInRuns
          (mkP ("see ".toList ++ placeholderOf keyAchievements ++ " here".toList))
          (placeholderOf keyAchievements) []) :: [] ∧
    paraText (replacePlaceholderInRuns
        (mkP ("see ".toList ++ placeholderOf keyAchievements ++ " here".toList))
        (placeholderOf keyAchievements) []) = "see ".toList ++ " here".toList :=
  c7_empty_list_in_place [] []
    (mkP ("see ".toList ++ placeholderOf keyAchievements ++ " here".toList))
    { text := "see ".toList ++ placeholderOf keyAchievements ++ " here".toList, style := noStyle }
    ("see ".toList) (" here".toList)
    (by decide) (by decide) (by decide) (by decide) (by decide) (by decide) (by decide)

/-! Claim C1. -/

/-- A template whose block body is one scalar-token paragraph. -/
def c1body : List Elem :=
  [Elem.par (mkP (openMarkerOf ("B".toList))),
   Elem.par (mkP (placeholderOf ("K".toList))),
   Elem.par (mkP (closeMarkerOf ("B".toList)))]

/-- C1 counterexample: the block name maps to a list of scalars; the
claim says expansion degrades to a no-op, but the pipeline raises the
`.items()` `AttributeError` instead. -/
theorem c1_counterexample :
    pipeline [("B".toList, DVal.slist ["a".toList])] 5 c1body = .raised itemsErr := by
  decide

/-- C1 (amended): when a block name maps to a scalar the block is indeed
left inert (the whole block phase is a no-op when every open-marker name
resolves to a non-list value); but a block name mapping to a non-empty
list of scalars with a non-empty block body raises instead of degrading
to a no-op (see the counterexample). -/
theorem c1_scalar_blocks_inert (data : Data) (body : List Elem) (fuel : Nat)
    (h : ∀ p ∈ bodyParas body, ∀ name, findOpenMarker (paraText p) = some name →
         ∀ v, dlookup data name = some v → v.isList = false) :
    blockPhase data (fuel + 1) body = .done body :=
  blockPhase_done data fuel body (by unfold scanBlocks; exact scanAux_none data _ _ 0 h)

/-- C1 witness: the same open marker with `B` bound to a scalar. -/
theorem c1_scalar_blocks_inert_witness :
    blockPhase [("B".toList, DVal.scalar ("x".toList))] 1 c1body = .done c1body := by
  apply c1_scalar_blocks_inert _ _ 0
  intro p hp name hname v hv
  have hparas : bodyParas c1body =
      [mkP (openMarkerOf ("B".toList)), mkP (placeholderOf ("K".toList)),
       mkP (closeMarkerOf ("B".toList))] := by rfl
  rw [hparas] at hp
  simp only [List.mem_cons, List.not_mem_nil, or_false] at hp
  rcases hp with hp | hp | hp
  · subst hp
    have hcomp : findOpenMarker (paraText (mkP (openMarkerOf ("B".toList)))) =
        some ("B".toList) := by decide
    rw [hcomp] at hname
    injection hname with hname
    subst hname
    have hl : dlookup [(("B".toList : Chars), DVal.scalar ("x".toList))] ("B".toList) =
        some (DVal.scalar ("x".toList)) := by decide
    rw [hl] at hv
    injection hv with hv
    subst hv
    rfl
  · subst hp
    have hcomp : findOpenMarker (paraText (mkP (placeholderOf ("K".toList)))) = none := by
      decide
    rw [hcomp] at hname
    exact Option.noConfusion hname
  · subst hp
    have hcomp : findOpenMarker (paraText (mkP (closeMarkerOf ("B".toList)))) = none := by
      decide
    rw [hcomp] at hname
    exact Option.noConfusion hname

/-! Claim C3. -/

/-- A document with a `SKILLS` list placeholder and a plain paragraph. -/
def c3body : List Elem :=
  [Elem.par (mkP (placeholderOf ("SKILLS".toList))), Elem.par (mkP ("x".toList))]

/-- C3 counterexample: `SKILLS` maps to a list and its token appears in a
paragraph, yet the whole pipeline leaves the document unchanged - stage 2
only fires for the two hard-wired key names, and stage 3 skips list
values, so the claim that every list-valued placeholder is expanded is
false. -/
theorem c3_counterexample :
    pipeline [("SKILLS".toList, DVal.slist ["Go".toList, "Rust".toList])] 2 c3body =
      .done c3body := by
  decide

/-- The achievements example used for the positive half of C3. -/
def c3posBody : List Elem := [Elem.par (mkP (placeholderOf keyAchievements))]

/-- Data binding the achievements key to a two-item list. -/
def c3posData : Data := [(keyAchievements, DVal.slist ["Go".toList, "Rust".toList])]

/-- C3 (amended): the list-expansion stage applies only to the two
hard-wired key names `KEY_ACHIEVEMENTS` and `TECHNICAL_STACK`: for data
containing neither name the stage is the identity on every document,
while for `KEY_ACHIEVEMENTS` the expansion does fire (first item in
place, the second as a sibling paragraph). -/
theorem c3_list_keys_hardwired :
    (∀ (data : Data) (body : List Elem),
      (∀ kv ∈ data, kv.1 ≠ keyAchievements ∧ kv.1 ≠ keyTechStack) →
      expandListPlaceholders data body = body) ∧
    expandListPlaceholders c3posData c3posBody =
      [Elem.par { runs := [{ text := "Go".toList, style := noStyle }],
                  pPrs := [freshPP] },
       Elem.par { runs := [{ text := "Rust".toList, style := { noStyle with bold := some false } }],
                  pPrs := [freshPP, { pStyle := some ("Normal".toList), extra := 0 }] }] :=
  ⟨expandListPlaceholders_id_of_notkeys, by decide⟩

/-- C3 witness: a `SKILLS` list key is not expanded by stage 2. -/
theorem c3_list_keys_hardwired_witness :
    expandListPlaceholders [("SKILLS".toList, DVal.slist ["Go".toList])]
        [Elem.par (mkP ("hello".toList))] = [Elem.par (mkP ("hello".toList))] :=
  c3_list_keys_hardwired.1 _ _ (by decide)

/-! Claim C8. -/

/-- C8 counterexample: a token-free document consisting of one empty
paragraph is not left unchanged by the pipeline - the trailing-empty trim
deletes the paragraph. -/
theorem c8_counterexample :
    pipeline [] 1 [Elem.par emptyPara] = .done [] ∧
      ([] : List Elem) ≠ [Elem.par emptyPara] := by
  decide

/-- C8 (amended): on a document none of whose paragraphs (body or table
cells) contains a `\x7b\x7b...\x7d\x7d` token, and which has no trailing
empty paragraphs (it is a fixed point of the trim), the whole pipeline is
the identity - so the second pass over an already-processed document is a
no-op. -/
theorem c8_second_pass_noop (data : Data) (body : List Elem) (fuel : Nat)
    (htok : ∀ p ∈ bodyParas body ++ tableParas body, hasTokenShape (paraText p) = false)
    (htrim : removeTrailingEmptyParagraphs body = body) :
    pipeline data (fuel + 1) body = .done body := by
  have hbody : ∀ p ∈ bodyParas body, hasTokenShape (paraText p) = false :=
    fun p hp => htok p (List.mem_append_left _ hp)
  have htbl : ∀ p ∈ tableParas body, hasTokenShape (paraText p) = false :=
    fun p hp => htok p (List.mem_append_right _ hp)
  have hnosub : ∀ p : Para, hasTokenShape (paraText p) = false →
      ∀ k : Chars, containsSub (placeholderOf k) (paraText p) = false := by
    intro p hp k
    by_contra hc
    have hc2 : containsSub (placeholderOf k) (paraText p) = true := by
      revert hc
      cases containsSub (placeholderOf k) (paraText p) <;> simp
    have := hasTokenShape_of_containsSub k (paraText p) hc2
    rw [hp] at this
    exact Bool.noConfusion this
  have hblock : blockPhase data (fuel + 1) body = .done body := by
    apply blockPhase_done
    unfold scanBlocks
    apply scanAux_none
    intro p hp name hname v _
    have := hasTokenShape_of_findOpen (paraText p) name hname
    rw [hbody p hp] at this
    exact Bool.noConfusion this
  rw [pipeline_of_blockPhase _ _ _ _ hblock]
  rw [expandListPlaceholders_id_of_nosub _ _
    (fun p hp kv _ => hnosub p (hbody p hp) kv.1)]
  rw [fillBodyScalars_id _ _
    (fun p hp => fillScalarsInPara_id _ _ (fun kv _ => Or.inr (hnosub p (hbody p hp) kv.1)))]
  rw [fillTableScalars_id _ _
    (fun p hp => fillScalarsInPara_id _ _ (fun kv _ => Or.inr (hnosub p (htbl p hp) kv.1)))]
  rw [htrim]

/-- C8 witness: a one-paragraph token-free document with scalar data. -/
theorem c8_second_pass_noop_witness :
    pipeline [("X".toList, DVal.scalar ("y".toList))] 1 [Elem.par (mkP ("hi".toList))] =
      .done [Elem.par (mkP ("hi".toList))] :=
  c8_second_pass_noop _ _ 0 (by decide) (by decide)

/-! Claim C5. -/

/-- A single bold run holding the technical-stack list token. -/
def c5p : Para := { runs := [{ text := placeholderOf keyTechStack, style := boldStyle }], pPrs := [] }

/-- Data binding the technical-stack key to the two items `a`, `b`. -/
def c5data : Data := [(keyTechStack, DVal.slist ["a".toList, "b".toList])]

/-- C5 counterexample: the run holding the token is bold and the item
`"b"` carries no markdown emphasis, yet the sibling paragraph's run has
bold explicitly set to `false` - `set_paragraph_text_with_formatting`
executes `run.bold = is_bold` unconditionally, clobbering the inherited
bold instead of carrying it over. -/
theorem c5_counterexample :
    expandListPlaceholders c5data [Elem.par c5p] =
      [Elem.par { runs := [{ text := "a".toList, style := boldStyle }], pPrs := [freshPP] },
       Elem.par { runs := [{ text := "b".toList, style := { noStyle with bold := some false } }],
                  pPrs := [freshPP, { pStyle := some ("Normal".toList), extra := 0 }] }] ∧
    c5p.runs.map (fun r => r.style.bold) = [some true] ∧
    ({ noStyle with bold := some false } : RunStyle).bold ≠ boldStyle.bold := by
  decide

/-- C5 (amended): for every item after the first, the sibling paragraph
is inserted immediately after the original paragraph, in item order, and
its runs carry the italic, underline, font name, size and color of the
run that held the token - but bold is set solely from the item's markdown
emphasis (`some true` on emphasised pieces, `some false` otherwise),
overriding the inherited bold. -/
theorem c5_sibling_formatting (A B : List Elem) (p : Para) (r0 : Run)
    (it0 it1 : Chars) (restItems : List Chars)
    (hA : ∀ q ∈ bodyParas A, containsSub (placeholderOf keyTechStack) (paraText q) = false)
    (hB : ∀ q ∈ bodyParas B, containsSub (placeholderOf keyTechStack) (paraText q) = false)
    (hcont : containsSub (placeholderOf keyTechStack) (paraText p) = true)
    (hfind : p.runs.find? (fun r => containsSub (placeholderOf keyTechStack) r.text) = some r0) :
    ∃ pFirst,
      expandListPlaceholders [(keyTechStack, DVal.slist (it0 :: it1 :: restItems))]
          (A ++ Elem.par p :: B) =
        A ++ Elem.par pFirst ::
          (((it1 :: restItems).map (fun it =>
            { runs := (parseMarkdownFormatting it).map (fun pb =>
                { text := pb.1,
                  style := { bold := some pb.2, italic := r0.style.italic,
                             underline := r0.style.underline,
                             fontName := truthyName r0.style.fontName,
                             size := truthySize r0.style.size,
                             color := r0.style.color } }),
              pPrs := [p.pPrs.head?.getD freshPP,
                       { pStyle := some (styleOfPara p), extra := 0 }] })).map Elem.par ++ B) := by
  refine ⟨{ runs := (setParaStyle (replacePlaceholderInRuns p (placeholderOf keyTechStack) it0)
                      (styleOfPara p)).runs,
            pPrs := (p.pPrs.head?.getD freshPP) ::
              (setParaStyle (replacePlaceholderInRuns p (placeholderOf keyTechStack) it0)
                (styleOfPara p)).pPrs.tail }, ?_⟩
  have hstep : stage2Key (keyTechStack, DVal.slist (it0 :: it1 :: restItems)) (p, []) =
      ({ runs := (setParaStyle (replacePlaceholderInRuns p (placeholderOf keyTechStack) it0)
            (styleOfPara p)).runs,
         pPrs := (p.pPrs.head?.getD freshPP) ::
           (setParaStyle (replacePlaceholderInRuns p (placeholderOf keyTechStack) it0)
             (styleOfPara p)).pPrs.tail },
       (it1 :: restItems).map (fun it =>
         { runs := (parseMarkdownFormatting it).map (fun pb =>
             { text := pb.1,
               style := { bold := some pb.2, italic := r0.style.italic,
                          underline := r0.style.underline,
                          fontName := truthyName r0.style.fontName,
                          size := truthySize r0.style.size,
                          color := r0.style.color } }),
           pPrs := [p.pPrs.head?.getD freshPP,
                    { pStyle := some (styleOfPara p), extra := 0 }] })) := by
    simp [stage2Key, stage2Cond, hcont, DVal.isList, listElems, hfind,
      setParagraphTextWithFormatting, siblingStyle, setParaStyle, emptyPara, freshPP]
  rw [show A ++ Elem.par p :: B = A ++ ([Elem.par p] ++ B) from by simp]
  rw [expandListPlaceholders_append, expandListPlaceholders_append]
  rw [expandListPlaceholders_id_of_nosub _ A (by
    intro q hq kv hkv
    rw [List.mem_singleton] at hkv
    subst hkv
    exact hA q hq)]
  rw [expandListPlaceholders_id_of_nosub _ B (by
    intro q hq kv hkv
    rw [List.mem_singleton] at hkv
    subst hkv
    exact hB q hq)]
  rw [expandListPlaceholders_single_par, List.foldl_cons, List.foldl_nil, hstep]
  simp

/-- C5 witness: the technical-stack list `["a", "b"]` on a single bold
run holding the token. -/
theorem c5_sibling_formatting_witness :
    ∃ pFirst,
      expandListPlaceholders [(keyTechStack, DVal.slist ("a".toList :: "b".toList :: []))]
          ([] ++ Elem.par c5p :: []) =
        [] ++ Elem.par pFirst ::
          ((("b".toList :: []).map (fun it =>
            { runs := (parseMarkdownFormatting it).map (fun pb =>
                { text := pb.1,
                  style := { bold := some pb.2, italic := boldStyle.italic,
                             underline := boldStyle.underline,
                             fontName := truthyName boldStyle.fontName,
                             size := truthySize boldStyle.size,
                             color := boldStyle.color } }),
              pPrs := [c5p.pPrs.head?.getD freshPP,
                       { pStyle := some (styleOfPara c5p), extra := 0 }] })).map Elem.par ++ []) :=
  c5_sibling_formatting [] [] c5p
    { text := placeholderOf keyTechStack, style := boldStyle }
    ("a".toList) ("b".toList) [] (by decide) (by decide) (by decide) (by decide)

/-! Length bookkeeping for the repeating-block generation (claim C2). -/

theorem sum_map_const_one {α : Type} (l : List α) (f : α → Nat)
    (h : ∀ x ∈ l, f x = 1) : (l.map f).sum = l.length := by
  induction l with
  | nil => rfl
  | cons x t ih =>
    rw [List.map_cons, List.sum_cons, h x (List.mem_cons_self x t),
        ih (fun y hy => h y (List.mem_cons_of_mem x hy))]
    simp only [List.length_cons]
    omega

theorem sum_map_const {α : Type} (l : List α) (f : α → Nat) (m : Nat)
    (h : ∀ x ∈ l, f x = m) : (l.map f).sum = l.length * m := by
  induction l with
  | nil => simp
  | cons x t ih =>
    rw [List.map_cons, List.sum_cons, h x (List.mem_cons_self x t),
        ih (fun y hy => h y (List.mem_cons_of_mem x hy))]
    simp only [List.length_cons]
    ring

theorem genTplPara_len_none (r : DRecord) (tp : Para)
    (h : findListKey r (paraText tp) = none) : (genTplPara r tp).length = 1 := by
  unfold genTplPara
  rw [h]
  rfl

theorem genTplPara_len_some (r : DRecord) (tp : Para) (L : Chars) (items : List Chars)
    (h : findListKey r (paraText tp) = some (L, items)) (hk : 1 ≤ items.length) :
    (genTplPara r tp).length = items.length := by
  unfold genTplPara
  rw [h]
  rcases items with _ | ⟨it0, _ | ⟨it1, rest⟩⟩
  · simp at hk
  · rfl
  · simp

theorem genForRecord_len (r : DRecord) (tplA tplB : List Para) (lp : Para)
    (L : Chars) (k : Nat)
    (hnone : ∀ tp ∈ tplA ++ tplB, findListKey r (paraText tp) = none)
    (hsome : (findListKey r (paraText lp)).map (fun kv => (kv.1, kv.2.length)) = some (L, k))
    (hk : 1 ≤ k) :
    (genForRecord r (tplA ++ lp :: tplB)).length = tplA.length + tplB.length + k := by
  obtain ⟨⟨L', items⟩, hfind, hlk⟩ : ∃ kv, findListKey r (paraText lp) = some kv ∧
      (kv.1, kv.2.length) = (L, k) := by
    rcases hf : findListKey r (paraText lp) with _ | kv
    · rw [hf] at hsome; exact absurd hsome (by simp)
    · rw [hf] at hsome
      exact ⟨kv, rfl, by injection hsome⟩
  have hitems : items.length = k := congrArg Prod.snd hlk
  unfold genForRecord
  rw [List.length_flatten, List.map_map]
  rw [List.map_append, List.map_cons]
  rw [List.sum_append, List.sum_cons]
  have hA : (tplA.map ((fun l => l.length) ∘ genTplPara r)).sum = tplA.length := by
    apply sum_map_const_one
    intro tp htp
    exact genTplPara_len_none r tp (hnone tp (List.mem_append_left _ htp))
  have hB : (tplB.map ((fun l => l.length) ∘ genTplPara r)).sum = tplB.length := by
    apply sum_map_const_one
    intro tp htp
    exact genTplPara_len_none r tp (hnone tp (List.mem_append_right _ htp))
  have hlp : ((fun l => l.length) ∘ genTplPara r) lp = k := by
    show (genTplPara r lp).length = k
    rw [genTplPara_len_some r lp L' items hfind (by omega), hitems]
  rw [hA, hB, hlp]
  omega

/-! Claim C2. -/

/-- C2 (amended): a repeating block whose records each hold a `k`-item
list field appearing in exactly one template paragraph expands, through
the whole pipeline (trim included), into exactly one copy of every
non-list template paragraph per record plus `k` list paragraphs per
record, in record order then template order, spliced in place of the
removed open-marker, template and close-marker paragraphs immediately
after the element that preceded the open marker; the stray empty
paragraphs the generation phase appends at the body end are removed by
the trim.  An element must precede the open marker (`A ≠ []`): at
document start the anchor is `None` and the insertion raises instead of
splicing (see the counterexample). -/
theorem c2_block_expansion (A C0 : List Elem) (endP openP closeP lp : Para)
    (tplA tplB : List Para) (name L : Chars) (records : List DRecord) (k fuel : Nat)
    (hA : A ≠ [])
    (hAnone : ∀ p ∈ bodyParas A, findOpenMarker (paraText p) = none)
    (hopen : findOpenMarker (paraText openP) = some name)
    (hnameA : name ≠ keyAchievements) (hnameT : name ≠ keyTechStack)
    (htplNoClose : ∀ p ∈ tplA ++ lp :: tplB,
      containsSub (closeMarkerOf name) (paraText p) = false)
    (hclose : containsSub (closeMarkerOf name) (paraText closeP) = true)
    (hCnone : ∀ p ∈ bodyParas (C0 ++ [Elem.par endP]), findOpenMarker (paraText p) = none)
    (hrec : ∀ r ∈ records,
      (∀ tp ∈ tplA ++ tplB, findListKey r (paraText tp) = none) ∧
      (findListKey r (paraText lp)).map (fun kv => (kv.1, kv.2.length)) = some (L, k))
    (hk : 1 ≤ k)
    (hgen : ∀ r ∈ records, ∀ p ∈ genForRecord r (tplA ++ lp :: tplB),
      findOpenMarker (paraText p) = none)
    (hend : endP.runs ≠ []) :
    pipeline [(name, DVal.rlist records)] (fuel + 2)
        (A ++ Elem.par openP :: ((tplA ++ lp :: tplB).map Elem.par ++
          Elem.par closeP :: (C0 ++ [Elem.par endP]))) =
      .done (A ++ ((records.map (fun r => genForRecord r (tplA ++ lp :: tplB))).flatten).map
          Elem.par ++ (C0 ++ [Elem.par endP])) ∧
    ((records.map (fun r => genForRecord r (tplA ++ lp :: tplB))).flatten).length =
      records.length * (tplA.length + tplB.length + k) := by
  have hlencons : ∀ (x : Para) (l : List Para), (x :: l).length = l.length + 1 := by
    intro x l; rfl
  constructor
  · -- names for the pieces
    have hparas : bodyParas (A ++ Elem.par openP :: ((tplA ++ lp :: tplB).map Elem.par ++
        Elem.par closeP :: (C0 ++ [Elem.par endP]))) =
        bodyParas A ++ openP :: ((tplA ++ lp :: tplB) ++
          closeP :: bodyParas (C0 ++ [Elem.par endP])) := by
      rw [bodyParas_append, bodyParas_block_shape]
    -- the scan finds exactly this block
    have hscan : scanBlocks [(name, DVal.rlist records)]
        (A ++ Elem.par openP :: ((tplA ++ lp :: tplB).map Elem.par ++
          Elem.par closeP :: (C0 ++ [Elem.par endP]))) =
        some ((bodyParas A).length,
          (bodyParas A).length + (tplA ++ lp :: tplB).length + 1, DVal.rlist records) := by
      unfold scanBlocks
      rw [hparas]
      rw [scanAux_skip _ _ _ _ 0 hAnone]
      simp only [Nat.zero_add]
      apply scanAux_hit
      · exact hopen
      · exact dlookup_single name (DVal.rlist records)
      · rfl
      · have hdrop : (bodyParas A ++ openP :: ((tplA ++ lp :: tplB) ++
            closeP :: bodyParas (C0 ++ [Elem.par endP]))).drop
              ((bodyParas A).length + 1) =
            (tplA ++ lp :: tplB) ++ closeP :: bodyParas (C0 ++ [Elem.par endP]) := by
          rw [show bodyParas A ++ openP :: ((tplA ++ lp :: tplB) ++
              closeP :: bodyParas (C0 ++ [Elem.par endP])) =
            (bodyParas A ++ [openP]) ++ ((tplA ++ lp :: tplB) ++
              closeP :: bodyParas (C0 ++ [Elem.par endP])) from by simp]
          rw [show (bodyParas A).length + 1 = (bodyParas A ++ [openP]).length from by simp]
          exact List.drop_left _ _
        rw [hdrop]
        rw [findCloseIdx_skip name _ _ _ htplNoClose]
        rw [findCloseIdx_hit name closeP _ _ hclose]
        congr 1
        omega
    -- the expansion produces the generated paragraphs plus strays
    have hexp : expandBlock
        (A ++ Elem.par openP :: ((tplA ++ lp :: tplB).map Elem.par ++
          Elem.par closeP :: (C0 ++ [Elem.par endP])))
        (bodyParas A).length ((bodyParas A).length + (tplA ++ lp :: tplB).length + 1)
        (DVal.rlist records) =
        .ok (A ++ ((records.map (fun r => genForRecord r (tplA ++ lp :: tplB))).flatten).map
            Elem.par ++
          ((C0 ++ [Elem.par endP]) ++
            List.replicate (records.length * (tplA ++ lp :: tplB).length)
              (Elem.par emptyPara))) := by
      rw [expandBlock_decomp _ _ _ _ _ _ hA]
      rfl
    have hstep := blockPhase_step [(name, DVal.rlist records)] (fuel + 1) _ _ _ _ _ hscan hexp
    -- after the expansion no block is found any more
    have hdone : blockPhase [(name, DVal.rlist records)] (fuel + 1)
        (A ++ ((records.map (fun r => genForRecord r (tplA ++ lp :: tplB))).flatten).map
            Elem.par ++
          ((C0 ++ [Elem.par endP]) ++
            List.replicate (records.length * (tplA ++ lp :: tplB).length)
              (Elem.par emptyPara))) =
        .done (A ++ ((records.map (fun r => genForRecord r (tplA ++ lp :: tplB))).flatten).map
            Elem.par ++
          ((C0 ++ [Elem.par endP]) ++
            List.replicate (records.length * (tplA ++ lp :: tplB).length)
              (Elem.par emptyPara))) := by
      apply blockPhase_done
      unfold scanBlocks
      apply scanAux_none
      intro p hp nm hnm v _
      exfalso
      rw [bodyParas_append, bodyParas_append, bodyParas_map_par, bodyParas_append,
        bodyParas_replicate_empty] at hp
      rcases List.mem_append.mp hp with hp1 | hp2
      · rcases List.mem_append.mp hp1 with hpa | hpg
        · rw [hAnone p hpa] at hnm; exact Option.noConfusion hnm
        · obtain ⟨l, hl, hpl⟩ := List.mem_flatten.mp hpg
          obtain ⟨r, hr, hrl⟩ := List.mem_map.mp hl
          subst hrl
          rw [hgen r hr p hpl] at hnm
          exact Option.noConfusion hnm
      · rcases List.mem_append.mp hp2 with hpc | hps
        · rw [hCnone p hpc] at hnm; exact Option.noConfusion hnm
        · have : p = emptyPara := List.eq_of_mem_replicate hps
          subst this
          rw [show findOpenMarker (paraText emptyPara) = none from rfl] at hnm
          exact Option.noConfusion hnm
    rw [pipeline_of_blockPhase _ _ _ _ (by rw [hstep]; exact hdone)]
    -- the later stages do not touch the document
    rw [expandListPlaceholders_id_of_notkeys _ _ (by
      intro kv hkv
      rw [List.mem_singleton] at hkv
      subst hkv
      exact ⟨hnameA, hnameT⟩)]
    rw [fillBodyScalars_id _ _ (by
      intro p _
      apply fillScalarsInPara_id
      intro kv hkv
      rw [List.mem_singleton] at hkv
      subst hkv
      exact Or.inl rfl)]
    rw [fillTableScalars_id _ _ (by
      intro p _
      apply fillScalarsInPara_id
      intro kv hkv
      rw [List.mem_singleton] at hkv
      subst hkv
      exact Or.inl rfl)]
    -- the trim removes exactly the stray empty paragraphs
    rw [show A ++ ((records.map (fun r => genForRecord r (tplA ++ lp :: tplB))).flatten).map
          Elem.par ++
        ((C0 ++ [Elem.par endP]) ++
          List.replicate (records.length * (tplA ++ lp :: tplB).length) (Elem.par emptyPara)) =
      (A ++ ((records.map (fun r => genForRecord r (tplA ++ lp :: tplB))).flatten).map
          Elem.par ++ C0) ++
        Elem.par endP :: List.replicate (records.length * (tplA ++ lp :: tplB).length)
          (Elem.par emptyPara) from by simp]
    rw [removeTrailing_strays _ endP _ hend]
    simp
  · rw [List.length_flatten, List.map_map]
    apply sum_map_const
    intro r hr
    exact genForRecord_len r tplA tplB lp L k (hrec r hr).1 (hrec r hr).2 hk

/-- First record of the C2 witness: a scalar title and a 3-item list. -/
def c2rec1 : DRecord :=
  [("TITLE".toList, DField.scalar ("Dev".toList)),
   ("DESCRIPTION".toList, DField.flist ["a".toList, "b".toList, "c".toList])]

/-- Second record of the C2 witness. -/
def c2rec2 : DRecord :=
  [("TITLE".toList, DField.scalar ("Ops".toList)),
   ("DESCRIPTION".toList, DField.flist ["d".toList, "e".toList, "f".toList])]

/-- The non-list template paragraph of the C2 witness. -/
def c2tplQ : Para := mkP ("Role: ".toList ++ placeholderOf ("TITLE".toList))

/-- The list-field template paragraph of the C2 witness. -/
def c2lp : Para := mkP (placeholderOf ("DESCRIPTION".toList))

/-- C2 witness: the spec's experience example with two records and a
three-item description list. -/
theorem c2_block_expansion_witness :
    pipeline [("EXPERIENCE".toList, DVal.rlist [c2rec1, c2rec2])] (0 + 2)
        ([Elem.par (mkP ("Intro".toList))] ++
          Elem.par (mkP (openMarkerOf ("EXPERIENCE".toList))) ::
          (([c2tplQ] ++ c2lp :: []).map Elem.par ++
            Elem.par (mkP (closeMarkerOf ("EXPERIENCE".toList))) ::
              ([] ++ [Elem.par (mkP ("End".toList))]))) =
      .done ([Elem.par (mkP ("Intro".toList))] ++
        (([c2rec1, c2rec2].map (fun r => genForRecord r ([c2tplQ] ++ c2lp :: []))).flatten).map
          Elem.par ++ ([] ++ [Elem.par (mkP ("End".toList))])) ∧
    (([c2rec1, c2rec2].map (fun r => genForRecord r ([c2tplQ] ++ c2lp :: []))).flatten).length =
      ([c2rec1, c2rec2] : List DRecord).length *
        (([c2tplQ] : List Para).length + ([] : List Para).length + 3) :=
  c2_block_expansion [Elem.par (mkP ("Intro".toList))] [] (mkP ("End".toList))
    (mkP (openMarkerOf ("EXPERIENCE".toList))) (mkP (closeMarkerOf ("EXPERIENCE".toList))) c2lp
    [c2tplQ] [] ("EXPERIENCE".toList) ("DESCRIPTION".toList) [c2rec1, c2rec2] 3 0
    (by simp) (by decide) (by decide) (by decide) (by decide) (by decide) (by decide)
    (by decide) (by decide) (by decide) (by decide) (by decide)

/-- C2 counterexample: when the open marker is the very first body
element there is no preceding element, the splice anchor is `None`, and
inserting the first generated paragraph calls `insert` on the `_Body`
proxy, which raises `AttributeError` - the document-start splice the
claim describes never takes place. -/
theorem c2_counterexample :
    pipeline [("EXPERIENCE".toList,
        DVal.rlist [[("TITLE".toList, DField.scalar ("Dev".toList))]])] 2
        [Elem.par (mkP (openMarkerOf ("EXPERIENCE".toList))),
         Elem.par (mkP (placeholderOf ("TITLE".toList))),
         Elem.par (mkP (closeMarkerOf ("EXPERIENCE".toList))),
         Elem.par (mkP ("End".toList))] =
      .raised insertErr := by
  decide

/-! Claim C9. -/

/-- Termination of the repeating-block phase on a given input: some fuel
suffices to leave the loop. -/
def terminatesOn (data : Data) (body : List Elem) : Prop :=
  ∃ fuel, blockPhase data fuel body ≠ .fuelOut

/-- The record list whose substituted values recreate the block markers. -/
def c9records : List DRecord :=
  [[("K".toList, DField.scalar (openMarkerOf ("B".toList)))],
   [("K".toList, DField.scalar (placeholderOf ("K".toList)))],
   [("K".toList, DField.scalar (closeMarkerOf ("B".toList)))]]

/-- Data that makes the block expansion reproduce its own block. -/
def c9data : Data := [("B".toList, DVal.rlist c9records)]

/-- Open-marker paragraph of the self-recreating block. -/
def c9p0 : Para := mkP (openMarkerOf ("B".toList))

/-- Template paragraph of the self-recreating block. -/
def c9p1 : Para := mkP (placeholderOf ("K".toList))

/-- Close-marker paragraph of the self-recreating block. -/
def c9p2 : Para := mkP (closeMarkerOf ("B".toList))

/-- Marker-free paragraph preceding the block, so a splice anchor exists
and every insertion goes through the working `addnext` path (with the
block at document start the first expansion would raise instead, see the
C2 counterexample). -/
def c9anchor : Para := mkP ("Profile".toList)

/-- The document that expands to itself forever: the anchor paragraph
followed by the three-paragraph self-recreating block. -/
def c9core : List Elem := [Elem.par c9anchor, Elem.par c9p0, Elem.par c9p1, Elem.par c9p2]

theorem c9_generate :
    generateForBlock (DVal.rlist c9records) [c9p1] = .ok ([c9p0, c9p1, c9p2], 3) := by
  rfl

theorem c9_scan (n : Nat) :
    scanBlocks c9data (c9core ++ List.replicate (3 * n) (Elem.par emptyPara)) =
      some (1, 3, DVal.rlist c9records) := by
  unfold scanBlocks
  have hbp : bodyParas (c9core ++ List.replicate (3 * n) (Elem.par emptyPara)) =
      c9anchor :: c9p0 :: c9p1 :: c9p2 :: List.replicate (3 * n) emptyPara := by
    rw [bodyParas_append, bodyParas_replicate_empty]
    rfl
  rw [hbp]
  rw [scanAux_cons_none _ _ _ _ 0 (by decide)]
  simp only [Nat.zero_add]
  refine scanAux_hit _ _ _ _ _ _ ("B".toList) _ ?_ ?_ ?_ ?_
  · decide
  · decide
  · rfl
  · show findCloseIdx ("B".toList) (c9p1 :: c9p2 :: List.replicate (3 * n) emptyPara) 2 = some 3
    rw [findCloseIdx_cons_neg _ _ _ _ (by decide), findCloseIdx_hit _ _ _ _ (by decide)]

theorem c9_expand (n : Nat) :
    expandBlock (c9core ++ List.replicate (3 * n) (Elem.par emptyPara)) 1 3
        (DVal.rlist c9records) =
      .ok (c9core ++ List.replicate (3 * (n + 1)) (Elem.par emptyPara)) := by
  show expandBlock ([Elem.par c9anchor] ++ Elem.par c9p0 :: ([c9p1].map Elem.par ++
      Elem.par c9p2 :: List.replicate (3 * n) (Elem.par emptyPara)))
    ((bodyParas ([Elem.par c9anchor] : List Elem)).length)
    ((bodyParas ([Elem.par c9anchor] : List Elem)).length + ([c9p1] : List Para).length + 1)
    (DVal.rlist c9records) = _
  rw [expandBlock_decomp [Elem.par c9anchor] (List.replicate (3 * n) (Elem.par emptyPara))
    c9p0 c9p2 [c9p1] (DVal.rlist c9records) (by simp), c9_generate]
  show Except.ok ([Elem.par c9anchor] ++ [c9p0, c9p1, c9p2].map Elem.par ++
      (List.replicate (3 * n) (Elem.par emptyPara) ++ List.replicate 3 (Elem.par emptyPara))) = _
  rw [← List.replicate_add]
  rw [show 3 * n + 3 = 3 * (n + 1) from by omega]
  rfl

theorem c9_loop (fuel : Nat) :
    ∀ n, blockPhase c9data fuel (c9core ++ List.replicate (3 * n) (Elem.par emptyPara)) =
      .fuelOut := by
  induction fuel with
  | zero => intro n; rfl
  | succ fuel ih =>
    intro n
    rw [blockPhase_step c9data fuel _ _ 1 3 (DVal.rlist c9records) (c9_scan n) (c9_expand n)]
    exact ih (n + 1)

/-- C9 counterexample: with a marker-free paragraph in front of a block
whose substituted record values recreate the open marker, interior token
and close marker of the block itself, every expansion splices via the
anchor's `addnext` and the restarting block scan expands the same block
forever; no amount of fuel makes the block phase finish, so the pipeline
does not always terminate. -/
theorem c9_counterexample : ¬ terminatesOn c9data c9core := by
  rintro ⟨fuel, hf⟩
  apply hf
  have h := c9_loop fuel 0
  simpa using h

/-- Does this paragraph's text match the block-open regex? -/
def openPred (p : Para) : Bool := (findOpenMarker (paraText p)).isSome

/-- Number of body paragraphs whose text contains a block-open marker:
the termination measure of the restarting block scan. -/
def markerCount (body : List Elem) : Nat := (bodyParas body).countP openPred

/-- The data never recreates an open marker: every paragraph generated
from any of its record lists (for any template slice) is marker-free.
This is the condition under which the restarting scan terminates; the
counterexample above violates it. -/
def SelfClean (data : Data) : Prop :=
  ∀ (name : Chars) (records : List DRecord) (tpl : List Para),
    dlookup data name = some (DVal.rlist records) →
    ∀ p ∈ (records.map (fun r => genForRecord r tpl)).flatten,
      findOpenMarker (paraText p) = none

theorem scanAux_cons_cases (data : Data) (all : List Para) (p : Para) (rest : List Para)
    (i0 : Nat) :
    scanAux data all (p :: rest) i0 = scanAux data all rest (i0 + 1) ∨
    ∃ name v j, findOpenMarker (paraText p) = some name ∧ dlookup data name = some v ∧
      v.isList = true ∧ findCloseIdx name (all.drop (i0 + 1)) (i0 + 1) = some j ∧
      scanAux data all (p :: rest) i0 = some (i0, j, v) := by
  rcases ho : findOpenMarker (paraText p) with _ | name
  · exact Or.inl (scanAux_cons_none data all p rest i0 ho)
  · rcases hd : dlookup data name with _ | v
    · exact Or.inl (by simp [scanAux, ho, hd])
    · cases hl : v.isList with
      | false => exact Or.inl (by simp [scanAux, ho, hd, hl])
      | true =>
        rcases hc : findCloseIdx name (all.drop (i0 + 1)) (i0 + 1) with _ | j
        · exact Or.inl (by simp [scanAux, ho, hd, hl, hc])
        · exact Or.inr ⟨name, v, j, rfl, hd, hl, hc, by simp [scanAux, ho, hd, hl, hc]⟩

theorem scanAux_facts (data : Data) (all : List Para) :
    ∀ (ps : List Para) (i0 i j : Nat) (v : DVal),
      scanAux data all ps i0 = some (i, j, v) →
      ∃ p name, i0 ≤ i ∧ ps[i - i0]? = some p ∧
        findOpenMarker (paraText p) = some name ∧
        dlookup data name = some v ∧ v.isList = true ∧
        findCloseIdx name (all.drop (i + 1)) (i + 1) = some j := by
  intro ps
  induction ps with
  | nil => intro i0 i j v h; exact absurd h (by simp [scanAux])
  | cons p rest ih =>
    intro i0 i j v h
    rcases scanAux_cons_cases data all p rest i0 with hskip | ⟨name, v', j', ho, hd, hl, hc, heq⟩
    · rw [hskip] at h
      obtain ⟨p', name, hle, hget, h3, h4, h5, h6⟩ := ih (i0 + 1) i j v h
      refine ⟨p', name, by omega, ?_, h3, h4, h5, h6⟩
      rw [show i - i0 = (i - (i0 + 1)) + 1 from by omega]
      simpa using hget
    · rw [heq] at h
      injection h with h
      obtain ⟨h1, h2, h3⟩ : i0 = i ∧ j' = j ∧ v' = v := by
        refine ⟨?_, ?_, ?_⟩ <;> [exact congrArg (fun x => x.1) h;
          exact congrArg (fun x => x.2.1) h; exact congrArg (fun x => x.2.2) h]
      subst h1; subst h2; subst h3
      exact ⟨p, name, Nat.le_refl _, by simp, ho, hd, hl, hc⟩

theorem findCloseIdx_ge (name : Chars) :
    ∀ (ps : List Para) (k j : Nat), findCloseIdx name ps k = some j → k ≤ j := by
  intro ps
  induction ps with
  | nil => intro k j h; exact absurd h (by simp [findCloseIdx])
  | cons p rest ih =>
    intro k j h
    by_cases hc : containsSub (closeMarkerOf name) (paraText p) = true
    · rw [findCloseIdx_hit _ _ _ _ hc] at h
      injection h with h
      omega
    · have hcf : containsSub (closeMarkerOf name) (paraText p) = false := by
        revert hc
        cases containsSub (closeMarkerOf name) (paraText p) <;> simp
      rw [findCloseIdx_cons_neg _ _ _ _ hcf] at h
      have := ih (k + 1) j h
      omega

theorem bodyParas_removeB (i j : Nat) :
    ∀ (body : List Elem) (k : Nat), i ≤ k → k ≤ j + 1 →
      bodyParas (removeParaRange body i j k) = (bodyParas body).drop (j + 1 - k) := by
  intro body
  induction body with
  | nil => intro k _ _; simp [bodyParas, removeParaRange]
  | cons e t ih =>
    intro k h1 h2
    cases e with
    | tbl tb =>
      show bodyParas (Elem.tbl tb :: removeParaRange t i j k) = _
      have ht : bodyParas (Elem.tbl tb :: removeParaRange t i j k) =
          bodyParas (removeParaRange t i j k) := by simp [bodyParas]
      have ht2 : bodyParas (Elem.tbl tb :: t) = bodyParas t := by simp [bodyParas]
      rw [ht, ih k h1 h2, ht2]
    | par p =>
      have hb : bodyParas (Elem.par p :: t) = p :: bodyParas t := by simp [bodyParas]
      by_cases hkj : k ≤ j
      · show bodyParas (if i ≤ k ∧ k ≤ j then removeParaRange t i j (k + 1)
            else Elem.par p :: removeParaRange t i j (k + 1)) = _
        rw [if_pos ⟨h1, hkj⟩, ih (k + 1) (by omega) (by omega), hb,
          show j + 1 - k = (j + 1 - (k + 1)) + 1 from by omega, List.drop_succ_cons]
      · show bodyParas (if i ≤ k ∧ k ≤ j then removeParaRange t i j (k + 1)
            else Elem.par p :: removeParaRange t i j (k + 1)) = _
        rw [if_neg (by omega), show j + 1 - k = 0 from by omega]
        have hafter : removeParaRange t i j (k + 1) = t := removeParaRange_after t i j (k + 1) (by omega)
        rw [List.drop_zero]
        show bodyParas (Elem.par p :: removeParaRange t i j (k + 1)) = _
        rw [hafter]

theorem bodyParas_removeA (i j : Nat) (hij : i ≤ j) :
    ∀ (body : List Elem) (k : Nat), k ≤ i →
      bodyParas (removeParaRange body i j k) =
        (bodyParas body).take (i - k) ++ (bodyParas body).drop (j + 1 - k) := by
  intro body
  induction body with
  | nil => intro k _; simp [bodyParas, removeParaRange]
  | cons e t ih =>
    intro k hk
    cases e with
    | tbl tb =>
      show bodyParas (Elem.tbl tb :: removeParaRange t i j k) = _
      have ht : bodyParas (Elem.tbl tb :: removeParaRange t i j k) =
          bodyParas (removeParaRange t i j k) := by simp [bodyParas]
      have ht2 : bodyParas (Elem.tbl tb :: t) = bodyParas t := by simp [bodyParas]
      rw [ht, ih k hk, ht2]
    | par p =>
      have hb : bodyParas (Elem.par p :: t) = p :: bodyParas t := by simp [bodyParas]
      by_cases hki : k < i
      · show bodyParas (if i ≤ k ∧ k ≤ j then removeParaRange t i j (k + 1)
            else Elem.par p :: removeParaRange t i j (k + 1)) = _
        rw [if_neg (by omega)]
        show bodyParas (Elem.par p :: removeParaRange t i j (k + 1)) = _
        have hcons : bodyParas (Elem.par p :: removeParaRange t i j (k + 1)) =
            p :: bodyParas (removeParaRange t i j (k + 1)) := by simp [bodyParas]
        rw [hcons, ih (k + 1) (by omega), hb,
          show i - k = (i - (k + 1)) + 1 from by omega,
          show j + 1 - k = (j + 1 - (k + 1)) + 1 from by omega,
          List.drop_succ_cons, List.take_succ_cons]
        rfl
      · have hkeq : k = i := by omega
        show bodyParas (if i ≤ k ∧ k ≤ j then removeParaRange t i j (k + 1)
            else Elem.par p :: removeParaRange t i j (k + 1)) = _
        rw [if_pos ⟨by omega, by omega⟩,
          bodyParas_removeB i j t (k + 1) (by omega) (by omega), hb,
          show i - k = 0 from by omega, List.take_zero,
          show j + 1 - k = (j + 1 - (k + 1)) + 1 from by omega, List.drop_succ_cons]
        rfl

theorem countP_drop_le {α : Type} (pred : α → Bool) (l : List α) (n : Nat) :
    (l.drop n).countP pred ≤ l.countP pred := by
  conv_rhs => rw [← List.take_append_drop n l]
  rw [List.countP_append]
  omega

theorem insertAfterIdx_countP (pred : Para → Bool) (b : List Elem) (a : Nat)
    (news : List Elem) :
    (bodyParas (insertAfterIdx b a news)).countP pred =
      (bodyParas b).countP pred + (bodyParas news).countP pred := by
  unfold insertAfterIdx
  rw [bodyParas_append, bodyParas_append, List.countP_append, List.countP_append]
  conv_rhs => rw [← List.take_append_drop (a + 1) b]
  rw [bodyParas_append, List.countP_append]
  omega

theorem markerCount_decreases (data : Data) (hclean : SelfClean data)
    (body b2 : List Elem) (i j : Nat) (v : DVal)
    (hscan : scanBlocks data body = some (i, j, v))
    (hexp : expandBlock body i j v = .ok b2) :
    markerCount b2 < markerCount body := by
  obtain ⟨p, name, _, hget, hopen, hdata, hlist, hclose⟩ :=
    scanAux_facts data (bodyParas body) (bodyParas body) 0 i j v hscan
  have hget2 : (bodyParas body)[i]? = some p := by simpa using hget
  have hij : i + 1 ≤ j := findCloseIdx_ge name _ (i + 1) j hclose
  unfold expandBlock at hexp
  rcases hg : generateForBlock v (((bodyParas body).drop (i + 1)).take (j - (i + 1)))
    with e | ⟨gens, strays⟩
  · rw [hg] at hexp
    exact absurd hexp (by simp)
  · rw [hg] at hexp
    have hgens : ∀ q ∈ gens, findOpenMarker (paraText q) = none := by
      rcases v with s | items | records
      · exact absurd hlist (by simp [DVal.isList])
      · rcases items with _ | ⟨it, its⟩
        · rw [show generateForBlock (DVal.slist []) (((bodyParas body).drop (i + 1)).take
              (j - (i + 1))) = Except.ok ([], 0) from rfl] at hg
          injection hg with hg
          have hgnil : gens = [] := (congrArg Prod.fst hg).symm
          rw [hgnil]
          intro q hq
          exact absurd hq (List.not_mem_nil q)
        · rcases htpl : ((bodyParas body).drop (i + 1)).take (j - (i + 1)) with _ | ⟨tp, tps⟩
          · rw [htpl] at hg
            rw [show generateForBlock (DVal.slist (it :: its)) [] = Except.ok ([], 0) from
              rfl] at hg
            injection hg with hg
            have hgnil : gens = [] := (congrArg Prod.fst hg).symm
            rw [hgnil]
            intro q hq
            exact absurd hq (List.not_mem_nil q)
          · rw [htpl] at hg
            rw [show generateForBlock (DVal.slist (it :: its)) (tp :: tps) =
              Except.error itemsErr from rfl] at hg
            exact absurd hg (by simp)
      · rw [show generateForBlock (DVal.rlist records) (((bodyParas body).drop (i + 1)).take
            (j - (i + 1))) =
          Except.ok ((records.map (fun r => genForRecord r (((bodyParas body).drop
            (i + 1)).take (j - (i + 1))))).flatten,
            records.length * (((bodyParas body).drop (i + 1)).take (j - (i + 1))).length)
          from rfl] at hg
        injection hg with hg
        have hgeq : gens = (records.map (fun r => genForRecord r (((bodyParas body).drop
            (i + 1)).take (j - (i + 1))))).flatten := (congrArg Prod.fst hg).symm
        rw [hgeq]
        exact hclean name records _ hdata
    have hcount_gens : (bodyParas (gens.map Elem.par)).countP openPred = 0 := by
      rw [bodyParas_map_par]
      apply List.countP_eq_zero.mpr
      intro q hq
      simp [openPred, hgens q hq]
    have hrem : bodyParas (removeParaRange body i j 0) =
        (bodyParas body).take i ++ (bodyParas body).drop (j + 1) := by
      have h := bodyParas_removeA i j (by omega) body 0 (by omega)
      simpa using h
    have hstray : (List.replicate strays emptyPara).countP openPred = 0 := by
      apply List.countP_eq_zero.mpr
      intro q hq
      rw [List.eq_of_mem_replicate hq]
      decide
    have hcore : (bodyParas (removeParaRange body i j 0 ++
        List.replicate strays (Elem.par emptyPara))).countP openPred =
        ((bodyParas body).take i).countP openPred +
          ((bodyParas body).drop (j + 1)).countP openPred := by
      rw [bodyParas_append, List.countP_append, hrem, List.countP_append,
        bodyParas_replicate_empty, hstray]
      omega
    have hexp2 : (if (bodyIdxOfPara body i 0).getD 0 = 0 then
        match gens with
        | [] => Except.ok (removeParaRange body i j 0 ++
            List.replicate strays (Elem.par emptyPara))
        | _ :: _ => Except.error insertErr
      else
        Except.ok (insertAfterIdx (removeParaRange body i j 0 ++
          List.replicate strays (Elem.par emptyPara))
          ((bodyIdxOfPara body i 0).getD 0 - 1) (List.map Elem.par gens))) =
        Except.ok b2 := hexp
    have hb2 : markerCount b2 = ((bodyParas body).take i).countP openPred +
        ((bodyParas body).drop (j + 1)).countP openPred := by
      split at hexp2
      · cases gens with
        | nil =>
          have hexp3 : (Except.ok (removeParaRange body i j 0 ++
              List.replicate strays (Elem.par emptyPara)) : Except String (List Elem)) =
              Except.ok b2 := hexp2
          injection hexp3 with hexp
          rw [← hexp]
          unfold markerCount
          exact hcore
        | cons g0 gtl =>
          have hexp3 : (Except.error insertErr : Except String (List Elem)) =
              Except.ok b2 := hexp2
          exact absurd hexp3 (by simp)
      · injection hexp2 with hexp
        rw [← hexp]
        unfold markerCount
        rw [insertAfterIdx_countP, hcore, hcount_gens]
        omega
    have hlen : i < (bodyParas body).length := by
      rcases List.getElem?_eq_some.mp hget2 with ⟨hl, _⟩
      exact hl
    have hdropi : (bodyParas body).drop i = p :: (bodyParas body).drop (i + 1) := by
      rw [List.drop_eq_getElem_cons hlen]
      obtain ⟨_, hpe⟩ := List.getElem?_eq_some.mp hget2
      rw [hpe]
    have hptrue : openPred p = true := by simp [openPred, hopen]
    have hmono : ((bodyParas body).drop (j + 1)).countP openPred ≤
        ((bodyParas body).drop (i + 1)).countP openPred := by
      rw [show j + 1 = (i + 1) + (j - i) from by omega, ← List.drop_drop]
      exact countP_drop_le openPred _ _
    have hsplit : markerCount body = ((bodyParas body).take i).countP openPred +
        ((bodyParas body).drop i).countP openPred := by
      unfold markerCount
      conv_lhs => rw [← List.take_append_drop i (bodyParas body)]
      rw [List.countP_append]
    rw [hb2, hsplit, hdropi, List.countP_cons_of_pos openPred _ hptrue]
    omega

/-- C9 (amended): the block phase terminates whenever the data is
self-clean - no record list ever generates a paragraph containing an
open marker.  Each expansion then strictly decreases the number of
paragraphs carrying an open marker, so fuel `markerCount body + 1`
suffices and the loop never runs out of fuel (it may still raise: for
non-record lists, claim C1, or for a block at document start, the C2
counterexample - raising also leaves the loop). -/
theorem c9_blockPhase_terminates (data : Data) (body : List Elem)
    (hclean : SelfClean data) :
    blockPhase data (markerCount body + 1) body ≠ .fuelOut := by
  suffices h : ∀ (N : Nat) (b : List Elem), markerCount b < N →
      blockPhase data N b ≠ .fuelOut by
    exact h _ body (by omega)
  intro N
  induction N with
  | zero => intro b hb; omega
  | succ N ih =>
    intro b hb
    rcases hs : scanBlocks data b with _ | ⟨i, j, v⟩
    · rw [blockPhase_done data N b hs]
      simp
    · rcases he : expandBlock b i j v with e | b2
      · rw [show blockPhase data (N + 1) b = .raised e from by simp [blockPhase, hs, he]]
        simp
      · rw [blockPhase_step data N b b2 i j v hs he]
        apply ih
        have := markerCount_decreases data hclean b b2 i j v hs he
        omega

/-- C9 witness: scalar-only data is self-clean, and the block phase on a
one-paragraph document finishes within the measure-derived fuel. -/
theorem c9_blockPhase_terminates_witness :
    blockPhase [("X".toList, DVal.scalar ("v".toList))]
        (markerCount [Elem.par (mkP ("hi".toList))] + 1)
        [Elem.par (mkP ("hi".toList))] ≠ .fuelOut := by
  apply c9_blockPhase_terminates
  intro name records tpl hd
  exfalso
  by_cases hx : ("X".toList : Chars) = name
  · simp [dlookup, hx] at hd
  · simp [dlookup, hx] at hd
